import Mathlib

/-!
Verification development for the user-repository storage layer of the
rust-webapp project.  We shallowly embed the three backends
(`adapters/memory.rs`, `adapters/sqlite.rs`, `adapters/mongo.rs`), the
error taxonomy `UserRepoError`, and the error classifiers
`map_sqlx_err` / `map_mongo_err`, and prove the spec's claims about them.

Conventions of the embedding:
* UUIDs are modelled as their canonical lowercase hyphenated string
  (8-4-4-4-12 hex digits), which is exactly what `Uuid::to_string`
  produces and what the backends store; `Uuid::parse_str` is modelled as
  accepting exactly that canonical form.
* Asynchronous I/O calls that can fail are given an explicit outcome
  argument (`Option e`): `none` means the call succeeded, `some err`
  means the driver reported `err`.
* The SQLite transaction in `remove_user` is modelled with buffered
  effects: the delete becomes visible only when the commit step succeeds.
-/

/-- Hex digit as produced by the lowercase UUID rendering. -/
def isHexDigit (c : Char) : Bool :=
  (('0' ≤ c) && (c ≤ '9')) || (('a' ≤ c) && (c ≤ 'f'))

/-- Character-level check of the canonical UUID layout: hyphens at
positions 8, 13, 18, 23, lowercase hex digits elsewhere. -/
def uuidCharsOk : Nat → List Char → Bool
  | _, [] => true
  | i, c :: rest =>
    (if i = 8 ∨ i = 13 ∨ i = 18 ∨ i = 23 then c = '-' else isHexDigit c)
      && uuidCharsOk (i + 1) rest

/-- A string is in canonical UUID format when it has 36 characters laid
out as 8-4-4-4-12 lowercase hex groups. -/
def uuidFormatOk (s : String) : Bool :=
  s.data.length = 36 && uuidCharsOk 0 s.data

/-- Model of `uuid::Uuid`: the canonical string rendering together with
a proof that it is well formed.  `to_string` is projection to the
string and `parse_str` re-checks the format. -/
structure Uuid where
  str : String
  ok : uuidFormatOk str = true

theorem Uuid.ext_str : ∀ {a b : Uuid}, a.str = b.str → a = b := by
  intro a b h
  cases a
  cases b
  simp only at h
  subst h
  rfl

instance : DecidableEq Uuid := fun a b =>
  if h : a.str = b.str then isTrue (Uuid.ext_str h)
  else isFalse (fun hh => h (congrArg Uuid.str hh))

/-- Model of `Uuid::to_string` (the canonical hyphenated rendering). -/
def uuidToString (u : Uuid) : String := u.str

/-- Model of `Uuid::parse_str`: succeeds exactly on canonical strings. -/
def parseUuid (s : String) : Option Uuid :=
  if h : uuidFormatOk s = true then some ⟨s, h⟩ else none

theorem uuidToString_injective : Function.Injective uuidToString := by
  intro a b h
  exact Uuid.ext_str h

theorem parseUuid_uuidToString (u : Uuid) : parseUuid (uuidToString u) = some u := by
  cases u with
  | mk s hs =>
    simp [parseUuid, uuidToString, hs]

/-- The nil UUID, used only to build concrete witnesses. -/
def uuid0 : Uuid := ⟨"00000000-0000-0000-0000-000000000000", by decide⟩

/-- A second concrete UUID for witnesses. -/
def uuid1 : Uuid := ⟨"00000000-0000-0000-0000-000000000001", by decide⟩

/-- The domain record from `users.rs`: `User { id, username, email }`. -/
structure User where
  id : Uuid
  username : String
  email : String
deriving DecidableEq

/-- The unified error taxonomy `UserRepoError`: `Unavailable`,
`Conflict { field, value }`, `Unexpected(cause)`.  The enum's own
declaration sits in a module not present here, but its three variants
are fixed by the pattern matches in `main.rs` and the constructors in
the adapters; the `Conflict` payload names come from the spec and the
`Unexpected` cause is modelled by its message string. -/
inductive UserRepoError where
  | unavailable
  | conflict (field value : String)
  | unexpected (cause : String)
deriving DecidableEq

/-- Discriminator for the `Conflict` variant. -/
def UserRepoError.isConflict : UserRepoError → Bool
  | .conflict _ _ => true
  | _ => false

/-- Discriminator for the `Unexpected` variant. -/
def UserRepoError.isUnexpected : UserRepoError → Bool
  | .unexpected _ => true
  | _ => false

/-- Model of `sqlx::Error` restricted to the shape `map_sqlx_err`
distinguishes: the pool variants, database-level errors (carrying the
database message), and everything else. -/
inductive SqlxError where
  | poolClosed
  | poolTimedOut
  | database (msg : String)
  | other (msg : String)
deriving DecidableEq

/-- Embedding of `map_sqlx_err` from `adapters/sqlite.rs`:
`PoolClosed`/`PoolTimedOut` become `Unavailable`, `Database(db_err)`
becomes `Unexpected(db_err)`, anything else becomes `Unexpected`. -/
def map_sqlx_err : SqlxError → UserRepoError
  | .poolClosed => .unavailable
  | .poolTimedOut => .unavailable
  | .database msg => .unexpected msg
  | .other msg => .unexpected msg

/-- List-level check that `pat` occurs at the start of `l`. -/
def leadsWith : List Char → List Char → Bool
  | [], _ => true
  | _ :: _, [] => false
  | a :: as, b :: bs => (a = b) && leadsWith as bs

/-- List-level substring containment, model of `str::contains`. -/
def hasSubstr (pat : List Char) : List Char → Bool
  | [] => leadsWith pat []
  | c :: rest => leadsWith pat (c :: rest) || hasSubstr pat rest

/-- Model of `mongodb::error::Error`: `map_mongo_err` only ever looks
at the rendered message, so the message string is the whole model. -/
abbrev MongoError := String

/-- The connectivity signals `map_mongo_err` sniffs for, in source
order. -/
def connectivityNeedles : List String :=
  ["server selection", "timed out", "timeout", "connection",
   "Connection refused", "pool"]

/-- True when the message matches one of the connectivity substrings. -/
def isConnectivitySignal (msg : MongoError) : Bool :=
  connectivityNeedles.any (fun n => hasSubstr n.data (String.data msg))

/-- Embedding of `map_mongo_err` from `adapters/mongo.rs`: messages
containing a connectivity substring become `Unavailable`; everything
else becomes `Unexpected` carrying the original error. -/
def map_mongo_err (e : MongoError) : UserRepoError :=
  if isConnectivitySignal e then .unavailable else .unexpected e

/-! ## In-memory backend (`adapters/memory.rs`) -/

/-- State of `MemoryUserRepo`: the `RwLock<HashMap<Uuid, User>>`,
modelled as an insertion-ordered association list whose keys the
HashMap semantics keep unique. -/
abbrev MemState := List (Uuid × User)

namespace Memory

/-- Model of `HashMap::insert`: replace in place when the key is
present, append otherwise. -/
def mapInsert (st : MemState) (k : Uuid) (v : User) : MemState :=
  if st.any (fun p => decide (p.1 = k)) then
    st.map (fun p => if p.1 = k then (k, v) else p)
  else
    st ++ [(k, v)]

/-- Model of `HashMap::get`. -/
def mapLookup (st : MemState) (k : Uuid) : Option User :=
  (st.find? (fun p => decide (p.1 = k))).map Prod.snd

/-- Model of the state change of `HashMap::remove`. -/
def mapErase (st : MemState) (k : Uuid) : MemState :=
  st.filter (fun p => decide (p.1 ≠ k))

/-- Embedding of `MemoryUserRepo::add_user`: mint the user, insert it
under its id, return it; this backend never fails. -/
def add_user (st : MemState) (freshId : Uuid) (username email : String) :
    (Except UserRepoError User) × MemState :=
  let user : User := ⟨freshId, username, email⟩
  (.ok user, mapInsert st freshId user)

/-- Embedding of `MemoryUserRepo::get_user`. -/
def get_user (st : MemState) (id : Uuid) : Except UserRepoError (Option User) :=
  .ok (mapLookup st id)

/-- Embedding of `MemoryUserRepo::remove_user`: `HashMap::remove`
returns the removed value; the guard makes take-and-return atomic. -/
def remove_user (st : MemState) (id : Uuid) :
    (Except UserRepoError (Option User)) × MemState :=
  (.ok (mapLookup st id), mapErase st id)

/-- Embedding of `MemoryUserRepo::list_users`. -/
def list_users (st : MemState) : Except UserRepoError (List User) :=
  .ok (st.map Prod.snd)

end Memory

/-! ## Relational backend (`adapters/sqlite.rs`) -/

/-- The row type `SqlxUserRow` read back from the `users` table. -/
structure SqlxUserRow where
  id : String
  username : String
  email : String
deriving DecidableEq

/-- Embedding of `SqlxUserRow::try_into_user`: parse the stored id,
classifying a parse failure as `Unexpected`. -/
def SqlxUserRow.try_into_user (r : SqlxUserRow) : Except UserRepoError User :=
  match parseUuid r.id with
  | none => .error (.unexpected ("invalid uuid: " ++ r.id))
  | some u => .ok ⟨u, r.username, r.email⟩

/-- State of the SQLite `users` table (id TEXT PRIMARY KEY, username,
email), rows in insertion order. -/
structure SqliteDb where
  rows : List SqlxUserRow
deriving DecidableEq

namespace Sqlite

/-- Row predicate for `WHERE id = ?`. -/
def rowFor (s : String) : SqlxUserRow → Bool :=
  fun r => decide (r.id = s)

/-- Embedding of `SqliteUserRepo::add_user`: mint the user, INSERT it;
the PRIMARY KEY on `id` makes a duplicate-id insert a database error,
and every sqlx error goes through `map_sqlx_err`. -/
def add_user (db : SqliteDb) (freshId : Uuid) (username email : String)
    (io : Option SqlxError) : (Except UserRepoError User) × SqliteDb :=
  let user : User := ⟨freshId, username, email⟩
  match io with
  | some e => (.error (map_sqlx_err e), db)
  | none =>
    if db.rows.any (rowFor (uuidToString freshId)) then
      (.error (map_sqlx_err (.database "UNIQUE constraint failed: users.id")), db)
    else
      (.ok user, ⟨db.rows ++ [⟨uuidToString freshId, username, email⟩]⟩)

/-- Embedding of `SqliteUserRepo::get_user`: SELECT by id (a read-only
statement), then decode the optional row. -/
def get_user (db : SqliteDb) (id : Uuid) (io : Option SqlxError) :
    Except UserRepoError (Option User) :=
  match io with
  | some e => .error (map_sqlx_err e)
  | none =>
    match db.rows.find? (rowFor (uuidToString id)) with
    | none => .ok none
    | some row => (row.try_into_user).map some

/-- Outcomes of the five fallible driver calls inside the `remove_user`
transaction. -/
structure TxOutcomes where
  beginTx : Option SqlxError
  selectStep : Option SqlxError
  rollbackStep : Option SqlxError
  deleteStep : Option SqlxError
  commitStep : Option SqlxError

/-- The all-successful transaction run. -/
def txOk : TxOutcomes := ⟨none, none, none, none, none⟩

/-- Embedding of `SqliteUserRepo::remove_user`: begin a transaction,
SELECT the row; if absent roll back and return empty; if present decode
it, DELETE, commit, and only a successful commit publishes the delete.
Dropping the transaction on an early error rolls it back, so every
error path leaves the table unchanged.  -/
def remove_user (db : SqliteDb) (id : Uuid) (tx : TxOutcomes) :
    (Except UserRepoError (Option User)) × SqliteDb :=
  match tx.beginTx with
  | some e => (.error (map_sqlx_err e), db)
  | none =>
    match tx.selectStep with
    | some e => (.error (map_sqlx_err e), db)
    | none =>
      match db.rows.find? (rowFor (uuidToString id)) with
      | none =>
        match tx.rollbackStep with
        | some e => (.error (map_sqlx_err e), db)
        | none => (.ok none, db)
      | some row =>
        match row.try_into_user with
        | .error e => (.error e, db)
        | .ok user =>
          match tx.deleteStep with
          | some e => (.error (map_sqlx_err e), db)
          | none =>
            match tx.commitStep with
            | some e => (.error (map_sqlx_err e), db)
            | none =>
              (.ok (some user),
               ⟨db.rows.filter (fun r => decide (r.id ≠ uuidToString id))⟩)

/-- Embedding of `SqliteUserRepo::list_users`: fetch all rows and decode
them, the first decode failure aborting the whole listing. -/
def list_users (db : SqliteDb) (io : Option SqlxError) :
    Except UserRepoError (List User) :=
  match io with
  | some e => .error (map_sqlx_err e)
  | none => db.rows.mapM SqlxUserRow.try_into_user

end Sqlite

/-! ## Document-store backend (`adapters/mongo.rs`) -/

/-- The collection document `MongoUserDoc`: the native `_id` ObjectId
(modelled by a counter value, internal only) plus the domain identifier
as the string field `uuid`, with a unique index. -/
structure MongoUserDoc where
  oid : Nat
  uuid : String
  username : String
  email : String
deriving DecidableEq

/-- Embedding of `MongoUserDoc::from_user`: fresh ObjectId, stringified
domain id. -/
def MongoUserDoc.from_user (oid : Nat) (user : User) : MongoUserDoc :=
  ⟨oid, uuidToString user.id, user.username, user.email⟩

/-- Embedding of `MongoUserDoc::try_into_user`: parse the stored `uuid`
string, classifying a parse failure as `Unexpected`. -/
def MongoUserDoc.try_into_user (d : MongoUserDoc) : Except UserRepoError User :=
  match parseUuid d.uuid with
  | none => .error (.unexpected ("invalid uuid: " ++ d.uuid))
  | some u => .ok ⟨u, d.username, d.email⟩

/-- State of the `users` collection: documents in insertion order plus
the ObjectId mint counter. -/
structure MongoDb where
  docs : List MongoUserDoc
  nextOid : Nat
deriving DecidableEq

namespace Mongo

/-- Document predicate for the filter `{ "uuid": s }`. -/
def docFor (s : String) : MongoUserDoc → Bool :=
  fun d => decide (d.uuid = s)

/-- Embedding of `MongoUserRepo::add_user`: mint the user, `insert_one`
its document; the unique index on `uuid` turns a duplicate into a
driver error, and every driver error goes through `map_mongo_err`. -/
def add_user (db : MongoDb) (freshId : Uuid) (username email : String)
    (io : Option MongoError) : (Except UserRepoError User) × MongoDb :=
  let user : User := ⟨freshId, username, email⟩
  match io with
  | some e => (.error (map_mongo_err e), db)
  | none =>
    if db.docs.any (docFor (uuidToString freshId)) then
      (.error (map_mongo_err "E11000 duplicate key error index: uuid_1"), db)
    else
      (.ok user,
       ⟨db.docs ++ [MongoUserDoc.from_user db.nextOid user], db.nextOid + 1⟩)

/-- Embedding of `MongoUserRepo::get_user`: `find_one` on the `uuid`
field, then decode the optional document. -/
def get_user (db : MongoDb) (id : Uuid) (io : Option MongoError) :
    Except UserRepoError (Option User) :=
  match io with
  | some e => .error (map_mongo_err e)
  | none =>
    match db.docs.find? (docFor (uuidToString id)) with
    | none => .ok none
    | some d => (d.try_into_user).map some

/-- Embedding of `MongoUserRepo::remove_user`: the single atomic
`find_one_and_delete` on the `uuid` field; when a document matched, it
is deleted and then decoded. -/
def remove_user (db : MongoDb) (id : Uuid) (io : Option MongoError) :
    (Except UserRepoError (Option User)) × MongoDb :=
  match io with
  | some e => (.error (map_mongo_err e), db)
  | none =>
    match db.docs.find? (docFor (uuidToString id)) with
    | none => (.ok none, db)
    | some d =>
      ((d.try_into_user).map some,
       ⟨db.docs.eraseP (docFor (uuidToString id)), db.nextOid⟩)

/-- Embedding of `MongoUserRepo::list_users`: `find` the full
collection, collect the cursor, decode every document, the first decode
failure aborting the whole listing. -/
def list_users (db : MongoDb) (ioFind ioCollect : Option MongoError) :
    Except UserRepoError (List User) :=
  match ioFind with
  | some e => .error (map_mongo_err e)
  | none =>
    match ioCollect with
    | some e => .error (map_mongo_err e)
    | none => db.docs.mapM MongoUserDoc.try_into_user

end Mongo

/-! ## Operation sequences over the repository contract

To state the sequence-level claims we run lists of contract operations
against each backend.  An `add` carries the identifier that
`Uuid::new_v4` minted for it, which determinizes the comparison across
backends; the driver outcome of every call is taken as success, i.e.
these runs model executions in which the storage medium is reachable. -/

/-- One operation of the repository contract. -/
inductive Op where
  | add (id : Uuid) (username email : String)
  | get (id : Uuid)
  | remove (id : Uuid)
  | list
deriving DecidableEq

deriving instance DecidableEq for Except

/-- Externally observable result of one operation. -/
inductive Output where
  | user (r : Except UserRepoError User)
  | optUser (r : Except UserRepoError (Option User))
  | users (r : Except UserRepoError (List User))
deriving DecidableEq

/-- The identifiers minted by the `add` operations of a sequence. -/
def addIds : List Op → List Uuid
  | [] => []
  | .add i _ _ :: ops => i :: addIds ops
  | _ :: ops => addIds ops

/-- Whether an operation is one of the two read operations. -/
def Op.isRead : Op → Bool
  | .get _ => true
  | .list => true
  | _ => false

/-- Run one operation on the in-memory backend. -/
def runMemOp (st : MemState) : Op → Output × MemState
  | .add i u e => let (r, st') := Memory.add_user st i u e; (.user r, st')
  | .get i => (.optUser (Memory.get_user st i), st)
  | .remove i => let (r, st') := Memory.remove_user st i; (.optUser r, st')
  | .list => (.users (Memory.list_users st), st)

/-- Run a sequence of operations on the in-memory backend. -/
def runMemOps : MemState → List Op → List Output × MemState
  | st, [] => ([], st)
  | st, op :: ops =>
    let (o, st') := runMemOp st op
    let (os, st'') := runMemOps st' ops
    (o :: os, st'')

/-- Run one operation on the relational backend (driver reachable). -/
def runSqliteOp (db : SqliteDb) : Op → Output × SqliteDb
  | .add i u e => let (r, db') := Sqlite.add_user db i u e none; (.user r, db')
  | .get i => (.optUser (Sqlite.get_user db i none), db)
  | .remove i => let (r, db') := Sqlite.remove_user db i Sqlite.txOk; (.optUser r, db')
  | .list => (.users (Sqlite.list_users db none), db)

/-- Run a sequence of operations on the relational backend. -/
def runSqliteOps : SqliteDb → List Op → List Output × SqliteDb
  | db, [] => ([], db)
  | db, op :: ops =>
    let (o, db') := runSqliteOp db op
    let (os, db'') := runSqliteOps db' ops
    (o :: os, db'')

/-- Run one operation on the document-store backend (driver
reachable). -/
def runMongoOp (db : MongoDb) : Op → Output × MongoDb
  | .add i u e => let (r, db') := Mongo.add_user db i u e none; (.user r, db')
  | .get i => (.optUser (Mongo.get_user db i none), db)
  | .remove i => let (r, db') := Mongo.remove_user db i none; (.optUser r, db')
  | .list => (.users (Mongo.list_users db none none), db)

/-- Run a sequence of operations on the document-store backend. -/
def runMongoOps : MongoDb → List Op → List Output × MongoDb
  | db, [] => ([], db)
  | db, op :: ops =>
    let (o, db') := runMongoOp db op
    let (os, db'') := runMongoOps db' ops
    (o :: os, db'')

/-- Output equivalence of the cross-backend conformance property:
results agree exactly, except that listings are compared up to
permutation. -/
def outputEquiv : Output → Output → Prop
  | .user a, .user b => a = b
  | .optUser a, .optUser b => a = b
  | .users (.ok a), .users (.ok b) => a.Perm b
  | .users (.error a), .users (.error b) => a = b
  | _, _ => False

theorem outputEquiv_refl (o : Output) : outputEquiv o o := by
  cases o with
  | user a => simp [outputEquiv]
  | optUser a => simp [outputEquiv]
  | users r =>
    cases r with
    | ok l => simp [outputEquiv]
    | error e => simp [outputEquiv]

theorem outputEquiv_of_eq {a b : Output} (h : a = b) : outputEquiv a b := by
  subst h
  exact outputEquiv_refl a

/-! ## Correspondence predicates and generic list lemmas -/

/-- The table row that stores a map entry. -/
def rowOfEntry (p : Uuid × User) : SqlxUserRow :=
  ⟨uuidToString p.1, p.2.username, p.2.email⟩

/-- The rows corresponding to an in-memory state. -/
def memRows (st : MemState) : List SqlxUserRow := st.map rowOfEntry

/-- The row data of a collection document (ObjectId dropped). -/
def docRow (d : MongoUserDoc) : SqlxUserRow := ⟨d.uuid, d.username, d.email⟩

/-- A memory state is coherent when each value is stored under its own
id, which `add_user` guarantees. -/
def Coherent (st : MemState) : Prop := ∀ p ∈ st, p.2.id = p.1

/-- At most one entry per identifier, keys-are-nodup form. -/
def KeysNodup (st : MemState) : Prop := (st.map Prod.fst).Nodup

/-- At most one row per identifier in the SQL table. -/
def RowsNodup (db : SqliteDb) : Prop := (db.rows.map SqlxUserRow.id).Nodup

/-- At most one document per identifier in the collection, which the
unique index on `uuid` enforces. -/
def DocsNodup (db : MongoDb) : Prop := (db.docs.map MongoUserDoc.uuid).Nodup

theorem find?_filter_of_imp {α : Type} (l : List α) (p q : α → Bool)
    (h : ∀ x, p x = true → q x = true) :
    (l.filter q).find? p = l.find? p := by
  induction l with
  | nil => rfl
  | cons a t ih =>
    by_cases hq : q a = true
    · rw [List.filter_cons_of_pos hq]
      by_cases hp : p a = true
      · rw [List.find?_cons_of_pos _ hp, List.find?_cons_of_pos _ hp]
      · rw [List.find?_cons_of_neg _ hp, List.find?_cons_of_neg _ hp, ih]
    · have hp : ¬ p a = true := fun hpa => hq (h a hpa)
      rw [List.filter_cons_of_neg hq, List.find?_cons_of_neg _ hp, ih]

theorem find?_eraseP_of_disjoint {α : Type} (l : List α) (p q : α → Bool)
    (h : ∀ x, p x = true → q x = false) :
    (l.eraseP q).find? p = l.find? p := by
  induction l with
  | nil => rfl
  | cons a t ih =>
    by_cases hq : q a = true
    · have hp : ¬ p a = true := fun hpa => by simp [h a hpa] at hq
      rw [List.eraseP_cons, hq, cond_true, List.find?_cons_of_neg _ hp]
    · have hqf : q a = false := by simpa using hq
      rw [List.eraseP_cons, hqf]
      by_cases hp : p a = true
      · rw [cond_false, List.find?_cons_of_pos _ hp, List.find?_cons_of_pos _ hp]
      · rw [cond_false, List.find?_cons_of_neg _ hp, List.find?_cons_of_neg _ hp, ih]

theorem eraseP_eq_filter_not {α : Type} (l : List α) (q : α → Bool)
    (h : l.Pairwise (fun a b => q a = true → q b = false)) :
    l.eraseP q = l.filter (fun x => !q x) := by
  induction l with
  | nil => rfl
  | cons a t ih =>
    rcases List.pairwise_cons.mp h with ⟨ha, ht⟩
    by_cases hq : q a = true
    · have : t.filter (fun x => !q x) = t :=
        List.filter_eq_self.mpr (fun b hb => by simp [ha b hb hq])
      rw [List.eraseP_cons, hq, cond_true, List.filter_cons_of_neg (by simp [hq]), this]
    · have hqf : q a = false := by simpa using hq
      rw [List.eraseP_cons, hqf, cond_false,
          List.filter_cons_of_pos (by simp [hqf]), ih ht]

/-! ## Lemmas about the in-memory map operations -/

theorem mapLookup_eq_none_iff (st : MemState) (i : Uuid) :
    Memory.mapLookup st i = none ↔ ∀ p ∈ st, p.1 ≠ i := by
  simp [Memory.mapLookup, List.find?_eq_none]

theorem mapErase_of_lookup_none {st : MemState} {i : Uuid}
    (h : Memory.mapLookup st i = none) : Memory.mapErase st i = st := by
  refine List.filter_eq_self.mpr (fun p hp => ?_)
  simpa using (mapLookup_eq_none_iff st i).mp h p hp

theorem mapLookup_mapErase_self (st : MemState) (i : Uuid) :
    Memory.mapLookup (Memory.mapErase st i) i = none := by
  refine (mapLookup_eq_none_iff _ i).mpr (fun p hp => ?_)
  have := List.of_mem_filter hp
  simpa using this

theorem mapLookup_mapErase_ne (st : MemState) {i j : Uuid} (h : j ≠ i) :
    Memory.mapLookup (Memory.mapErase st i) j = Memory.mapLookup st j := by
  unfold Memory.mapLookup Memory.mapErase
  rw [find?_filter_of_imp]
  intro p hp
  simp at hp ⊢
  rw [hp]
  exact h

theorem mapLookup_mapInsert_self (st : MemState) (k : Uuid) (v : User) :
    Memory.mapLookup (Memory.mapInsert st k v) k = some v := by
  unfold Memory.mapInsert
  by_cases hany : st.any (fun p => decide (p.1 = k)) = true
  · rw [if_pos hany]
    induction st with
    | nil => simp at hany
    | cons p t ih =>
      by_cases hp : p.1 = k
      · simp [Memory.mapLookup, List.find?_cons, hp]
      · have ht : t.any (fun p => decide (p.1 = k)) = true := by
          simp [List.any_cons, hp] at hany
          simpa using hany
        simpa [Memory.mapLookup, List.find?_cons, hp] using ih ht
  · rw [if_neg hany]
    have hnone : st.find? (fun p => decide (p.1 = k)) = none := by
      rw [List.find?_eq_none]
      intro p hp
      simp
      intro hk
      exact hany (List.any_eq_true.mpr ⟨p, hp, by simp [hk]⟩)
    simp [Memory.mapLookup, List.find?_append, hnone]

theorem mapLookup_mapInsert_ne (st : MemState) {k j : Uuid} (v : User) (h : j ≠ k) :
    Memory.mapLookup (Memory.mapInsert st k v) j = Memory.mapLookup st j := by
  unfold Memory.mapInsert
  by_cases hany : st.any (fun p => decide (p.1 = k)) = true
  · rw [if_pos hany]
    unfold Memory.mapLookup
    rw [List.find?_map]
    have hpred : ((fun p : Uuid × User => decide (p.1 = j)) ∘
        (fun p => if p.1 = k then (k, v) else p)) =
        (fun p : Uuid × User => decide (p.1 = j)) := by
      funext p
      by_cases hp : p.1 = k
      · simp [hp, Function.comp]
      · simp [hp, Function.comp]
    rw [hpred]
    cases hfind : st.find? (fun p => decide (p.1 = j)) with
    | none => simp
    | some p =>
      have hpj : p.1 = j := by simpa using List.find?_some hfind
      have hpk : ¬ p.1 = k := by
        rw [hpj]
        exact h
      simp [hpk]
  · rw [if_neg hany]
    unfold Memory.mapLookup
    rw [List.find?_append]
    have : List.find? (fun p : Uuid × User => decide (p.1 = j)) [(k, v)] = none := by
      simp only [List.find?_cons, List.find?_nil]
      have : decide ((k, v).1 = j) = false := by
        simp
        intro hkj
        exact absurd hkj.symm h
      rw [this]
    rw [this]
    simp

theorem keys_mapErase_sublist (st : MemState) (i : Uuid) :
    ((Memory.mapErase st i).map Prod.fst).Sublist (st.map Prod.fst) :=
  List.Sublist.map Prod.fst (List.filter_sublist st)

theorem keysNodup_mapErase {st : MemState} (i : Uuid) (h : KeysNodup st) :
    KeysNodup (Memory.mapErase st i) :=
  List.Nodup.sublist (keys_mapErase_sublist st i) h

theorem keysNodup_mapInsert {st : MemState} (k : Uuid) (v : User) (h : KeysNodup st) :
    KeysNodup (Memory.mapInsert st k v) := by
  unfold Memory.mapInsert
  by_cases hany : st.any (fun p => decide (p.1 = k)) = true
  · rw [if_pos hany]
    have hkeys : (st.map (fun p => if p.1 = k then (k, v) else p)).map Prod.fst =
        st.map Prod.fst := by
      rw [List.map_map]
      refine List.map_congr_left (fun p _ => ?_)
      by_cases hp : p.1 = k
      · simp [hp, Function.comp]
      · simp [hp, Function.comp]
    unfold KeysNodup
    rw [hkeys]
    exact h
  · rw [if_neg hany]
    unfold KeysNodup
    rw [List.map_append]
    simp only [List.map_cons, List.map_nil]
    rw [List.nodup_append]
    refine ⟨h, List.nodup_singleton k, ?_⟩
    intro a ha hb
    simp at hb
    subst hb
    rcases List.mem_map.mp ha with ⟨p, hp, hpk⟩
    exact hany (List.any_eq_true.mpr ⟨p, hp, by simp [hpk]⟩)

theorem coherent_mapInsert {st : MemState} {k : Uuid} {v : User}
    (h : Coherent st) (hv : v.id = k) : Coherent (Memory.mapInsert st k v) := by
  unfold Memory.mapInsert
  by_cases hany : st.any (fun p => decide (p.1 = k)) = true
  · rw [if_pos hany]
    intro p hp
    rcases List.mem_map.mp hp with ⟨q, hq, hqp⟩
    by_cases hqk : q.1 = k
    · simp [hqk] at hqp
      rw [← hqp]
      exact hv
    · simp [hqk] at hqp
      rw [← hqp]
      exact h q hq
  · rw [if_neg hany]
    intro p hp
    rcases List.mem_append.mp hp with hl | hr
    · exact h p hl
    · simp at hr
      rw [hr]
      exact hv

theorem coherent_mapErase {st : MemState} (i : Uuid) (h : Coherent st) :
    Coherent (Memory.mapErase st i) :=
  fun p hp => h p (List.mem_of_mem_filter hp)

/-! ## Decode and correspondence lemmas -/

theorem decode_rowOfEntry (p : Uuid × User) (h : p.2.id = p.1) :
    (rowOfEntry p).try_into_user = .ok p.2 := by
  simp only [rowOfEntry, SqlxUserRow.try_into_user, parseUuid_uuidToString]
  rw [← h]

theorem rowFor_comp_rowOfEntry (i : Uuid) :
    (Sqlite.rowFor (uuidToString i)) ∘ rowOfEntry =
    (fun p : Uuid × User => decide (p.1 = i)) := by
  funext p
  simp [Sqlite.rowFor, rowOfEntry, uuidToString_injective.eq_iff]

theorem find?_memRows (st : MemState) (i : Uuid) :
    (memRows st).find? (Sqlite.rowFor (uuidToString i)) =
    (st.find? (fun p => decide (p.1 = i))).map rowOfEntry := by
  rw [memRows, List.find?_map, rowFor_comp_rowOfEntry]

theorem any_memRows (st : MemState) (i : Uuid) :
    (memRows st).any (Sqlite.rowFor (uuidToString i)) =
    st.any (fun p => decide (p.1 = i)) := by
  induction st with
  | nil => rfl
  | cons p t ih =>
    simp only [memRows, List.map_cons, List.any_cons] at ih ⊢
    rw [ih]
    congr 1
    simp [Sqlite.rowFor, rowOfEntry, uuidToString_injective.eq_iff]

theorem filter_memRows (st : MemState) (i : Uuid) :
    (memRows st).filter (fun r => decide (r.id ≠ uuidToString i)) =
    memRows (Memory.mapErase st i) := by
  unfold memRows Memory.mapErase
  rw [List.filter_map]
  congr 1
  congr 1
  funext p
  simp [rowOfEntry, uuidToString_injective.eq_iff]

theorem mapM_memRows (st : MemState) (h : Coherent st) :
    (memRows st).mapM SqlxUserRow.try_into_user = .ok (st.map Prod.snd) := by
  induction st with
  | nil => rfl
  | cons p t ih =>
    have hp : p.2.id = p.1 := h p (List.mem_cons_self p t)
    have ht : Coherent t := fun q hq => h q (List.mem_cons_of_mem p hq)
    show List.mapM SqlxUserRow.try_into_user (rowOfEntry p :: memRows t) = _
    rw [List.mapM_cons, decode_rowOfEntry p hp, ih ht]
    rfl

/-! ## Unfolding lemmas for operation sequences -/

theorem runMemOps_cons (st : MemState) (op : Op) (ops : List Op) :
    runMemOps st (op :: ops) =
    ((runMemOp st op).1 :: (runMemOps (runMemOp st op).2 ops).1,
     (runMemOps (runMemOp st op).2 ops).2) := by
  cases hr : runMemOp st op with
  | mk o st1 =>
    cases hs : runMemOps st1 ops with
    | mk os st2 => simp [runMemOps, hr, hs]

theorem runSqliteOps_cons (db : SqliteDb) (op : Op) (ops : List Op) :
    runSqliteOps db (op :: ops) =
    ((runSqliteOp db op).1 :: (runSqliteOps (runSqliteOp db op).2 ops).1,
     (runSqliteOps (runSqliteOp db op).2 ops).2) := by
  cases hr : runSqliteOp db op with
  | mk o db1 =>
    cases hs : runSqliteOps db1 ops with
    | mk os db2 => simp [runSqliteOps, hr, hs]

theorem runMongoOps_cons (db : MongoDb) (op : Op) (ops : List Op) :
    runMongoOps db (op :: ops) =
    ((runMongoOp db op).1 :: (runMongoOps (runMongoOp db op).2 ops).1,
     (runMongoOps (runMongoOp db op).2 ops).2) := by
  cases hr : runMongoOp db op with
  | mk o db1 =>
    cases hs : runMongoOps db1 ops with
    | mk os db2 => simp [runMongoOps, hr, hs]

theorem runMemOps_append (st : MemState) (l1 l2 : List Op) :
    runMemOps st (l1 ++ l2) =
    ((runMemOps st l1).1 ++ (runMemOps (runMemOps st l1).2 l2).1,
     (runMemOps (runMemOps st l1).2 l2).2) := by
  induction l1 generalizing st with
  | nil => simp [runMemOps]
  | cons op t ih =>
    rw [List.cons_append, runMemOps_cons, runMemOps_cons, ih]
    simp

theorem runSqliteOps_append (db : SqliteDb) (l1 l2 : List Op) :
    runSqliteOps db (l1 ++ l2) =
    ((runSqliteOps db l1).1 ++ (runSqliteOps (runSqliteOps db l1).2 l2).1,
     (runSqliteOps (runSqliteOps db l1).2 l2).2) := by
  induction l1 generalizing db with
  | nil => simp [runSqliteOps]
  | cons op t ih =>
    rw [List.cons_append, runSqliteOps_cons, runSqliteOps_cons, ih]
    simp

theorem runMongoOps_append (db : MongoDb) (l1 l2 : List Op) :
    runMongoOps db (l1 ++ l2) =
    ((runMongoOps db l1).1 ++ (runMongoOps (runMongoOps db l1).2 l2).1,
     (runMongoOps (runMongoOps db l1).2 l2).2) := by
  induction l1 generalizing db with
  | nil => simp [runMongoOps]
  | cons op t ih =>
    rw [List.cons_append, runMongoOps_cons, runMongoOps_cons, ih]
    simp

/-! ## Simulation of the relational backend by the in-memory backend -/

theorem filter_memRows_not (st : MemState) (i : Uuid) :
    (memRows st).filter (fun r => !decide (r.id = uuidToString i)) =
    memRows (Memory.mapErase st i) := by
  have hpred : (fun r : SqlxUserRow => !decide (r.id = uuidToString i)) =
      (fun r : SqlxUserRow => decide (r.id ≠ uuidToString i)) := by
    funext r
    simp [decide_not]
  rw [hpred, filter_memRows]

theorem runSqliteOp_corr (st : MemState) (db : SqliteDb) (op : Op)
    (hrows : db.rows = memRows st) (hcoh : Coherent st)
    (hfr : ∀ i ∈ addIds [op], ∀ p ∈ st, p.1 ≠ i) :
    (runSqliteOp db op).1 = (runMemOp st op).1 ∧
    (runSqliteOp db op).2.rows = memRows (runMemOp st op).2 ∧
    Coherent (runMemOp st op).2 ∧
    (∀ p ∈ (runMemOp st op).2, p.1 ∈ st.map Prod.fst ∨ p.1 ∈ addIds [op]) := by
  cases op with
  | add i u e =>
    have hfresh : ∀ p ∈ st, p.1 ≠ i := hfr i (by simp [addIds])
    have hanymem : st.any (fun p => decide (p.1 = i)) = false := by
      cases hany : st.any (fun p => decide (p.1 = i)) with
      | false => rfl
      | true =>
        rcases List.any_eq_true.mp hany with ⟨p, hp, hpi⟩
        exact absurd (of_decide_eq_true hpi) (hfresh p hp)
    have hmemstep : runMemOp st (.add i u e) =
        (.user (.ok ⟨i, u, e⟩), st ++ [(i, ⟨i, u, e⟩)]) := by
      simp [runMemOp, Memory.add_user, Memory.mapInsert, hanymem]
    have hsqlany : db.rows.any (Sqlite.rowFor (uuidToString i)) = false := by
      rw [hrows, any_memRows, hanymem]
    have hsqlstep : runSqliteOp db (.add i u e) =
        (.user (.ok ⟨i, u, e⟩), ⟨db.rows ++ [⟨uuidToString i, u, e⟩]⟩) := by
      simp [runSqliteOp, Sqlite.add_user, hsqlany]
    rw [hmemstep, hsqlstep]
    refine ⟨rfl, ?_, ?_, ?_⟩
    · rw [hrows]
      simp [memRows, rowOfEntry]
    · intro p hp
      rcases List.mem_append.mp hp with h1 | h2
      · exact hcoh p h1
      · simp at h2
        rw [h2]
    · intro p hp
      rcases List.mem_append.mp hp with h1 | h2
      · exact Or.inl (List.mem_map_of_mem Prod.fst h1)
      · right
        simp at h2
        simp [addIds, h2]
  | get i =>
    have houtput : Sqlite.get_user db i none = .ok (Memory.mapLookup st i) := by
      unfold Sqlite.get_user
      rw [hrows, find?_memRows]
      cases hfind : st.find? (fun p => decide (p.1 = i)) with
      | none => simp [Memory.mapLookup, hfind]
      | some p =>
        have hp : p.2.id = p.1 := hcoh p (List.mem_of_find?_eq_some hfind)
        simp [Memory.mapLookup, hfind, decode_rowOfEntry p hp, Except.map]
    refine ⟨?_, hrows, hcoh, ?_⟩
    · show Output.optUser (Sqlite.get_user db i none) = (runMemOp st (.get i)).1
      rw [houtput]
      rfl
    · intro p hp
      exact Or.inl (List.mem_map_of_mem Prod.fst hp)
  | remove i =>
    cases hfind : st.find? (fun p => decide (p.1 = i)) with
    | none =>
      have hlook : Memory.mapLookup st i = none := by
        simp [Memory.mapLookup, hfind]
      have hmemstep : runMemOp st (.remove i) = (.optUser (.ok none), st) := by
        simp [runMemOp, Memory.remove_user, hlook, mapErase_of_lookup_none hlook]
      have hsqlstep : runSqliteOp db (.remove i) = (.optUser (.ok none), db) := by
        simp only [runSqliteOp, Sqlite.remove_user, Sqlite.txOk]
        rw [hrows, find?_memRows, hfind]
        simp
      rw [hmemstep, hsqlstep]
      exact ⟨rfl, hrows, hcoh, fun p hp => Or.inl (List.mem_map_of_mem Prod.fst hp)⟩
    | some p =>
      have hp : p.2.id = p.1 := hcoh p (List.mem_of_find?_eq_some hfind)
      have hlook : Memory.mapLookup st i = some p.2 := by
        simp [Memory.mapLookup, hfind]
      have hmemstep : runMemOp st (.remove i) =
          (.optUser (.ok (some p.2)), Memory.mapErase st i) := by
        simp [runMemOp, Memory.remove_user, hlook]
      have hsqlstep : runSqliteOp db (.remove i) =
          (.optUser (.ok (some p.2)), ⟨memRows (Memory.mapErase st i)⟩) := by
        simp only [runSqliteOp, Sqlite.remove_user, Sqlite.txOk]
        rw [hrows, find?_memRows, hfind]
        simp [decode_rowOfEntry p hp, filter_memRows_not]
      rw [hmemstep, hsqlstep]
      refine ⟨rfl, rfl, coherent_mapErase i hcoh, ?_⟩
      intro q hq
      exact Or.inl (List.mem_map_of_mem Prod.fst (List.mem_of_mem_filter hq))
  | list =>
    have houtput : Sqlite.list_users db none = .ok (st.map Prod.snd) := by
      unfold Sqlite.list_users
      rw [hrows]
      exact mapM_memRows st hcoh
    refine ⟨?_, hrows, hcoh, ?_⟩
    · show Output.users (Sqlite.list_users db none) = (runMemOp st .list).1
      rw [houtput]
      rfl
    · intro p hp
      exact Or.inl (List.mem_map_of_mem Prod.fst hp)

theorem addIds_single_subset (op : Op) (tail : List Op) :
    ∀ i ∈ addIds [op], i ∈ addIds (op :: tail) := by
  intro i hi
  cases op <;> simp [addIds] at hi ⊢
  exact Or.inl hi

theorem addIds_tail_nodup {op : Op} {tail : List Op}
    (h : (addIds (op :: tail)).Nodup) : (addIds tail).Nodup := by
  cases op <;> simp [addIds] at h ⊢ <;> try exact h
  exact h.2

theorem runSqliteOps_sim : ∀ (ops : List Op) (st : MemState) (db : SqliteDb),
    db.rows = memRows st → Coherent st →
    (addIds ops).Nodup → (∀ i ∈ addIds ops, ∀ p ∈ st, p.1 ≠ i) →
    (runSqliteOps db ops).1 = (runMemOps st ops).1 ∧
    (runSqliteOps db ops).2.rows = memRows (runMemOps st ops).2 := by
  intro ops
  induction ops with
  | nil => exact fun st db h hc _ _ => ⟨rfl, h⟩
  | cons op tail ih =>
    intro st db hrows hcoh hnd hfr
    have hfr1 : ∀ i ∈ addIds [op], ∀ p ∈ st, p.1 ≠ i :=
      fun i hi => hfr i (addIds_single_subset op tail i hi)
    rcases runSqliteOp_corr st db op hrows hcoh hfr1 with ⟨hout, hrows', hcoh', hbound⟩
    have hnd' : (addIds tail).Nodup := addIds_tail_nodup hnd
    have hfr' : ∀ i ∈ addIds tail, ∀ p ∈ (runMemOp st op).2, p.1 ≠ i := by
      intro i hi p hp
      rcases hbound p hp with hk | ha
      · rcases List.mem_map.mp hk with ⟨q, hq, hq1⟩
        have : i ∈ addIds (op :: tail) := by
          cases op <;> simp [addIds] <;> simp [addIds] at hi ⊢ <;> try exact hi
          exact Or.inr hi
        rw [← hq1]
        exact hfr i this q hq
      · cases op with
        | add j u e =>
          simp [addIds] at ha
          simp [addIds] at hnd
          rw [ha]
          intro hji
          rw [hji] at hnd
          exact hnd.1 hi
        | get j => simp [addIds] at ha
        | remove j => simp [addIds] at ha
        | list => simp [addIds] at ha
    rcases ih (runMemOp st op).2 (runSqliteOp db op).2 hrows' hcoh' hnd' hfr' with
      ⟨htail, hrowsF⟩
    rw [runSqliteOps_cons, runMemOps_cons]
    exact ⟨by rw [hout, htail], hrowsF⟩

/-! ## Simulation of the document-store backend by the in-memory backend -/

theorem anyMapGen {α β : Type} (l : List α) (f : α → β) (p : β → Bool) :
    (l.map f).any p = l.any (p ∘ f) := by
  induction l with
  | nil => rfl
  | cons a t ih => simp [List.any_cons, ih, Function.comp]

theorem docFor_eq_comp (s : String) :
    Mongo.docFor s = (Sqlite.rowFor s) ∘ docRow := by
  funext d
  rfl

theorem uuid_comp_docRow : MongoUserDoc.uuid = SqlxUserRow.id ∘ docRow := by
  funext d
  rfl

theorem decode_doc_of_docRow (d : MongoUserDoc) (p : Uuid × User)
    (hd : docRow d = rowOfEntry p) (hp : p.2.id = p.1) :
    d.try_into_user = .ok p.2 := by
  have h1 : d.uuid = uuidToString p.1 := congrArg SqlxUserRow.id hd
  have h2 : d.username = p.2.username := congrArg SqlxUserRow.username hd
  have h3 : d.email = p.2.email := congrArg SqlxUserRow.email hd
  simp only [MongoUserDoc.try_into_user, h1, h2, h3, parseUuid_uuidToString]
  rw [← hp]

theorem find?_docs (docs : List MongoUserDoc) (st : MemState) (i : Uuid)
    (h : docs.map docRow = memRows st) :
    (docs.find? (Mongo.docFor (uuidToString i))).map docRow =
    (st.find? (fun p => decide (p.1 = i))).map rowOfEntry := by
  rw [docFor_eq_comp, ← List.find?_map, h, find?_memRows]

theorem docs_uuid_eq (docs : List MongoUserDoc) (st : MemState)
    (h : docs.map docRow = memRows st) :
    docs.map MongoUserDoc.uuid = (st.map Prod.fst).map uuidToString := by
  rw [uuid_comp_docRow, ← List.map_map, h]
  unfold memRows
  rw [List.map_map, List.map_map]
  rfl

theorem docs_pairwise_docFor (docs : List MongoUserDoc) (st : MemState) (i : Uuid)
    (h : docs.map docRow = memRows st) (hkn : KeysNodup st) :
    docs.Pairwise (fun a b => Mongo.docFor (uuidToString i) a = true →
      Mongo.docFor (uuidToString i) b = false) := by
  have hnodup : (docs.map MongoUserDoc.uuid).Nodup := by
    rw [docs_uuid_eq docs st h]
    exact List.Nodup.map uuidToString_injective hkn
  have hpair : docs.Pairwise (fun a b => a.uuid ≠ b.uuid) :=
    List.pairwise_map.mp hnodup
  refine hpair.imp ?_
  intro a b hab ha
  have hau : a.uuid = uuidToString i := of_decide_eq_true ha
  have : b.uuid ≠ uuidToString i := fun hb => hab (hau ▸ hb ▸ rfl)
  simpa [Mongo.docFor] using this

theorem eraseP_docs (docs : List MongoUserDoc) (st : MemState) (i : Uuid)
    (h : docs.map docRow = memRows st) (hkn : KeysNodup st) :
    (docs.eraseP (Mongo.docFor (uuidToString i))).map docRow =
    memRows (Memory.mapErase st i) := by
  rw [eraseP_eq_filter_not docs _ (docs_pairwise_docFor docs st i h hkn)]
  have hpred : (fun d : MongoUserDoc => !Mongo.docFor (uuidToString i) d) =
      ((fun r : SqlxUserRow => !decide (r.id = uuidToString i)) ∘ docRow) := by
    funext d
    rfl
  rw [hpred, ← List.filter_map, h, filter_memRows_not]

theorem mapM_docs (docs : List MongoUserDoc) : ∀ (st : MemState),
    docs.map docRow = memRows st → Coherent st →
    docs.mapM MongoUserDoc.try_into_user = .ok (st.map Prod.snd) := by
  induction docs with
  | nil =>
    intro st h _
    have : memRows st = [] := h.symm
    have hst : st = [] := by
      unfold memRows at this
      exact List.map_eq_nil_iff.mp this
    rw [hst]
    rfl
  | cons d ds ih =>
    intro st h hcoh
    cases st with
    | nil => simp [memRows] at h
    | cons p t =>
      simp only [memRows, List.map_cons, List.cons.injEq] at h
      have hp : p.2.id = p.1 := hcoh p (List.mem_cons_self p t)
      have ht : Coherent t := fun q hq => hcoh q (List.mem_cons_of_mem p hq)
      rw [List.mapM_cons, decode_doc_of_docRow d p h.1 hp, ih t h.2 ht]
      rfl

theorem runMongoOp_corr (st : MemState) (db : MongoDb) (op : Op)
    (hdocs : db.docs.map docRow = memRows st) (hcoh : Coherent st)
    (hkn : KeysNodup st)
    (hfr : ∀ i ∈ addIds [op], ∀ p ∈ st, p.1 ≠ i) :
    (runMongoOp db op).1 = (runMemOp st op).1 ∧
    (runMongoOp db op).2.docs.map docRow = memRows (runMemOp st op).2 ∧
    Coherent (runMemOp st op).2 ∧
    KeysNodup (runMemOp st op).2 ∧
    (∀ p ∈ (runMemOp st op).2, p.1 ∈ st.map Prod.fst ∨ p.1 ∈ addIds [op]) := by
  cases op with
  | add i u e =>
    have hfresh : ∀ p ∈ st, p.1 ≠ i := hfr i (by simp [addIds])
    have hanymem : st.any (fun p => decide (p.1 = i)) = false := by
      cases hany : st.any (fun p => decide (p.1 = i)) with
      | false => rfl
      | true =>
        rcases List.any_eq_true.mp hany with ⟨p, hp, hpi⟩
        exact absurd (of_decide_eq_true hpi) (hfresh p hp)
    have hmemstep : runMemOp st (.add i u e) =
        (.user (.ok ⟨i, u, e⟩), st ++ [(i, ⟨i, u, e⟩)]) := by
      simp [runMemOp, Memory.add_user, Memory.mapInsert, hanymem]
    have hmongoany : db.docs.any (Mongo.docFor (uuidToString i)) = false := by
      rw [docFor_eq_comp, ← anyMapGen, hdocs, any_memRows, hanymem]
    have hmongostep : runMongoOp db (.add i u e) =
        (.user (.ok ⟨i, u, e⟩),
         ⟨db.docs ++ [MongoUserDoc.from_user db.nextOid ⟨i, u, e⟩], db.nextOid + 1⟩) := by
      simp [runMongoOp, Mongo.add_user, hmongoany]
    rw [hmemstep, hmongostep]
    have hinsnodup : KeysNodup (st ++ [(i, ⟨i, u, e⟩)]) := by
      have := keysNodup_mapInsert i (⟨i, u, e⟩ : User) hkn
      rwa [Memory.mapInsert, if_neg (by simp [hanymem])] at this
    refine ⟨rfl, ?_, ?_, hinsnodup, ?_⟩
    · simp only [List.map_append, hdocs]
      simp [memRows, docRow, MongoUserDoc.from_user, rowOfEntry, uuidToString]
    · intro p hp
      rcases List.mem_append.mp hp with h1 | h2
      · exact hcoh p h1
      · simp at h2
        rw [h2]
    · intro p hp
      rcases List.mem_append.mp hp with h1 | h2
      · exact Or.inl (List.mem_map_of_mem Prod.fst h1)
      · right
        simp at h2
        simp [addIds, h2]
  | get i =>
    have houtput : Mongo.get_user db i none = .ok (Memory.mapLookup st i) := by
      unfold Mongo.get_user
      have hfd := find?_docs db.docs st i hdocs
      cases hfind : st.find? (fun p => decide (p.1 = i)) with
      | none =>
        rw [hfind] at hfd
        simp only [Option.map_none'] at hfd
        rw [Option.map_eq_none'] at hfd
        simp [hfd, Memory.mapLookup, hfind]
      | some p =>
        rw [hfind] at hfd
        rcases Option.map_eq_some.mp hfd with ⟨d, hd, hrow⟩
        have hp : p.2.id = p.1 := hcoh p (List.mem_of_find?_eq_some hfind)
        simp [hd, decode_doc_of_docRow d p hrow hp, Memory.mapLookup, hfind,
          Except.map]
    refine ⟨?_, hdocs, hcoh, hkn, ?_⟩
    · show Output.optUser (Mongo.get_user db i none) = (runMemOp st (.get i)).1
      rw [houtput]
      rfl
    · intro p hp
      exact Or.inl (List.mem_map_of_mem Prod.fst hp)
  | remove i =>
    have hfd := find?_docs db.docs st i hdocs
    cases hfind : st.find? (fun p => decide (p.1 = i)) with
    | none =>
      rw [hfind] at hfd
      simp only [Option.map_none'] at hfd
      rw [Option.map_eq_none'] at hfd
      have hlook : Memory.mapLookup st i = none := by
        simp [Memory.mapLookup, hfind]
      have hmemstep : runMemOp st (.remove i) = (.optUser (.ok none), st) := by
        simp [runMemOp, Memory.remove_user, hlook, mapErase_of_lookup_none hlook]
      have hmongostep : runMongoOp db (.remove i) = (.optUser (.ok none), db) := by
        simp [runMongoOp, Mongo.remove_user, hfd]
      rw [hmemstep, hmongostep]
      exact ⟨rfl, hdocs, hcoh, hkn, fun p hp => Or.inl (List.mem_map_of_mem Prod.fst hp)⟩
    | some p =>
      rw [hfind] at hfd
      rcases Option.map_eq_some.mp hfd with ⟨d, hd, hrow⟩
      have hp : p.2.id = p.1 := hcoh p (List.mem_of_find?_eq_some hfind)
      have hlook : Memory.mapLookup st i = some p.2 := by
        simp [Memory.mapLookup, hfind]
      have hmemstep : runMemOp st (.remove i) =
          (.optUser (.ok (some p.2)), Memory.mapErase st i) := by
        simp [runMemOp, Memory.remove_user, hlook]
      have hmongostep : runMongoOp db (.remove i) =
          (.optUser (.ok (some p.2)),
           ⟨db.docs.eraseP (Mongo.docFor (uuidToString i)), db.nextOid⟩) := by
        simp [runMongoOp, Mongo.remove_user, hd, decode_doc_of_docRow d p hrow hp,
          Except.map]
      rw [hmemstep, hmongostep]
      refine ⟨rfl, ?_, coherent_mapErase i hcoh, keysNodup_mapErase i hkn, ?_⟩
      · exact eraseP_docs db.docs st i hdocs hkn
      · intro q hq
        exact Or.inl (List.mem_map_of_mem Prod.fst (List.mem_of_mem_filter hq))
  | list =>
    have houtput : Mongo.list_users db none none = .ok (st.map Prod.snd) := by
      unfold Mongo.list_users
      exact mapM_docs db.docs st hdocs hcoh
    refine ⟨?_, hdocs, hcoh, hkn, ?_⟩
    · show Output.users (Mongo.list_users db none none) = (runMemOp st .list).1
      rw [houtput]
      rfl
    · intro p hp
      exact Or.inl (List.mem_map_of_mem Prod.fst hp)

theorem runMongoOps_sim : ∀ (ops : List Op) (st : MemState) (db : MongoDb),
    db.docs.map docRow = memRows st → Coherent st → KeysNodup st →
    (addIds ops).Nodup → (∀ i ∈ addIds ops, ∀ p ∈ st, p.1 ≠ i) →
    (runMongoOps db ops).1 = (runMemOps st ops).1 ∧
    (runMongoOps db ops).2.docs.map docRow = memRows (runMemOps st ops).2 := by
  intro ops
  induction ops with
  | nil => exact fun st db h hc _ _ _ => ⟨rfl, h⟩
  | cons op tail ih =>
    intro st db hdocs hcoh hkn hnd hfr
    have hfr1 : ∀ i ∈ addIds [op], ∀ p ∈ st, p.1 ≠ i :=
      fun i hi => hfr i (addIds_single_subset op tail i hi)
    rcases runMongoOp_corr st db op hdocs hcoh hkn hfr1 with
      ⟨hout, hdocs', hcoh', hkn', hbound⟩
    have hnd' : (addIds tail).Nodup := addIds_tail_nodup hnd
    have hfr' : ∀ i ∈ addIds tail, ∀ p ∈ (runMemOp st op).2, p.1 ≠ i := by
      intro i hi p hp
      rcases hbound p hp with hk | ha
      · rcases List.mem_map.mp hk with ⟨q, hq, hq1⟩
        have : i ∈ addIds (op :: tail) := by
          cases op <;> simp [addIds] <;> simp [addIds] at hi ⊢ <;> try exact hi
          exact Or.inr hi
        rw [← hq1]
        exact hfr i this q hq
      · cases op with
        | add j u e =>
          simp [addIds] at ha
          simp [addIds] at hnd
          rw [ha]
          intro hji
          rw [hji] at hnd
          exact hnd.1 hi
        | get j => simp [addIds] at ha
        | remove j => simp [addIds] at ha
        | list => simp [addIds] at ha
    rcases ih (runMemOp st op).2 (runMongoOp db op).2 hdocs' hcoh' hkn' hnd' hfr' with
      ⟨htail, hdocsF⟩
    rw [runMongoOps_cons, runMemOps_cons]
    exact ⟨by rw [hout, htail], hdocsF⟩

/-! ## Read operations leave the state unchanged -/

theorem runMemOp_read_state (st : MemState) (op : Op) (h : op.isRead = true) :
    (runMemOp st op).2 = st := by
  cases op with
  | get i => rfl
  | list => rfl
  | add i u e => simp [Op.isRead] at h
  | remove i => simp [Op.isRead] at h

theorem runSqliteOp_read_state (db : SqliteDb) (op : Op) (h : op.isRead = true) :
    (runSqliteOp db op).2 = db := by
  cases op with
  | get i => rfl
  | list => rfl
  | add i u e => simp [Op.isRead] at h
  | remove i => simp [Op.isRead] at h

theorem runMongoOp_read_state (db : MongoDb) (op : Op) (h : op.isRead = true) :
    (runMongoOp db op).2 = db := by
  cases op with
  | get i => rfl
  | list => rfl
  | add i u e => simp [Op.isRead] at h
  | remove i => simp [Op.isRead] at h

theorem runMemOps_reads_state (reads : List Op) (st : MemState)
    (h : ∀ op ∈ reads, op.isRead = true) : (runMemOps st reads).2 = st := by
  induction reads generalizing st with
  | nil => rfl
  | cons op t ih =>
    rw [runMemOps_cons]
    simp only
    rw [runMemOp_read_state st op (h op (List.mem_cons_self op t))]
    exact ih st (fun q hq => h q (List.mem_cons_of_mem op hq))

theorem runSqliteOps_reads_state (reads : List Op) (db : SqliteDb)
    (h : ∀ op ∈ reads, op.isRead = true) : (runSqliteOps db reads).2 = db := by
  induction reads generalizing db with
  | nil => rfl
  | cons op t ih =>
    rw [runSqliteOps_cons]
    simp only
    rw [runSqliteOp_read_state db op (h op (List.mem_cons_self op t))]
    exact ih db (fun q hq => h q (List.mem_cons_of_mem op hq))

theorem runMongoOps_reads_state (reads : List Op) (db : MongoDb)
    (h : ∀ op ∈ reads, op.isRead = true) : (runMongoOps db reads).2 = db := by
  induction reads generalizing db with
  | nil => rfl
  | cons op t ih =>
    rw [runMongoOps_cons]
    simp only
    rw [runMongoOp_read_state db op (h op (List.mem_cons_self op t))]
    exact ih db (fun q hq => h q (List.mem_cons_of_mem op hq))

/-! ## Preservation of the one-record-per-identifier invariant -/

theorem runMemOp_keysNodup (st : MemState) (op : Op) (h : KeysNodup st) :
    KeysNodup (runMemOp st op).2 := by
  cases op with
  | add i u e => exact keysNodup_mapInsert i ⟨i, u, e⟩ h
  | get i => exact h
  | remove i => exact keysNodup_mapErase i h
  | list => exact h

theorem runMemOps_keysNodup (ops : List Op) : ∀ (st : MemState), KeysNodup st →
    KeysNodup (runMemOps st ops).2 := by
  induction ops with
  | nil => exact fun st h => h
  | cons op t ih =>
    intro st h
    rw [runMemOps_cons]
    exact ih (runMemOp st op).2 (runMemOp_keysNodup st op h)

theorem runSqliteOp_rowsNodup (db : SqliteDb) (op : Op) (h : RowsNodup db) :
    RowsNodup (runSqliteOp db op).2 := by
  cases op with
  | add i u e =>
    by_cases hany : db.rows.any (Sqlite.rowFor (uuidToString i)) = true
    · simp [runSqliteOp, Sqlite.add_user, hany]
      exact h
    · have hany' : db.rows.any (Sqlite.rowFor (uuidToString i)) = false := by
        simpa using hany
      simp only [runSqliteOp, Sqlite.add_user, hany', Bool.false_eq_true, if_false]
      unfold RowsNodup at h ⊢
      simp only [List.map_append, List.map_cons, List.map_nil]
      rw [List.nodup_append]
      refine ⟨h, List.nodup_singleton _, ?_⟩
      intro a ha hb
      simp at hb
      subst hb
      rcases List.mem_map.mp ha with ⟨r, hr, hrid⟩
      exact hany (List.any_eq_true.mpr ⟨r, hr, by simp [Sqlite.rowFor, hrid]⟩)
  | get i => exact h
  | remove i =>
    cases hfind : db.rows.find? (Sqlite.rowFor (uuidToString i)) with
    | none =>
      simp only [runSqliteOp, Sqlite.remove_user, Sqlite.txOk, hfind]
      exact h
    | some row =>
      cases hdec : row.try_into_user with
      | error e =>
        simp only [runSqliteOp, Sqlite.remove_user, Sqlite.txOk, hfind, hdec]
        exact h
      | ok user =>
        simp only [runSqliteOp, Sqlite.remove_user, Sqlite.txOk, hfind, hdec]
        exact List.Nodup.sublist
          (List.Sublist.map SqlxUserRow.id (List.filter_sublist db.rows)) h
  | list => exact h

theorem runSqliteOps_rowsNodup (ops : List Op) : ∀ (db : SqliteDb), RowsNodup db →
    RowsNodup (runSqliteOps db ops).2 := by
  induction ops with
  | nil => exact fun db h => h
  | cons op t ih =>
    intro db h
    rw [runSqliteOps_cons]
    exact ih (runSqliteOp db op).2 (runSqliteOp_rowsNodup db op h)

theorem runMongoOp_docsNodup (db : MongoDb) (op : Op) (h : DocsNodup db) :
    DocsNodup (runMongoOp db op).2 := by
  cases op with
  | add i u e =>
    by_cases hany : db.docs.any (Mongo.docFor (uuidToString i)) = true
    · simp [runMongoOp, Mongo.add_user, hany]
      exact h
    · have hany' : db.docs.any (Mongo.docFor (uuidToString i)) = false := by
        simpa using hany
      simp only [runMongoOp, Mongo.add_user, hany', Bool.false_eq_true, if_false]
      unfold DocsNodup at h ⊢
      simp only [List.map_append, List.map_cons, List.map_nil]
      rw [List.nodup_append]
      refine ⟨h, List.nodup_singleton _, ?_⟩
      intro a ha hb
      simp at hb
      subst hb
      rcases List.mem_map.mp ha with ⟨d, hd, hduuid⟩
      refine hany (List.any_eq_true.mpr ⟨d, hd, ?_⟩)
      simp only [MongoUserDoc.from_user] at hduuid
      simp [Mongo.docFor, hduuid]
  | get i => exact h
  | remove i =>
    cases hfind : db.docs.find? (Mongo.docFor (uuidToString i)) with
    | none =>
      simp only [runMongoOp, Mongo.remove_user, hfind]
      exact h
    | some d =>
      simp only [runMongoOp, Mongo.remove_user, hfind]
      exact List.Nodup.sublist
        (List.Sublist.map MongoUserDoc.uuid (List.eraseP_sublist db.docs)) h
  | list => exact h

theorem runMongoOps_docsNodup (ops : List Op) : ∀ (db : MongoDb), DocsNodup db →
    DocsNodup (runMongoOps db ops).2 := by
  induction ops with
  | nil => exact fun db h => h
  | cons op t ih =>
    intro db h
    rw [runMongoOps_cons]
    exact ih (runMongoOp db op).2 (runMongoOp_docsNodup db op h)

/-! ## A stored binding survives operations on other identifiers -/

/-- Whether an operation writes the given identifier. -/
def Op.touches (i : Uuid) : Op → Bool
  | .add j _ _ => decide (j = i)
  | .remove j => decide (j = i)
  | _ => false

theorem runMemOp_binding (st : MemState) (op : Op) (i : Uuid) (u : User)
    (h : Memory.mapLookup st i = some u) (hop : Op.touches i op = false) :
    Memory.mapLookup (runMemOp st op).2 i = some u := by
  cases op with
  | add j a b =>
    have hne : i ≠ j := by
      simp [Op.touches] at hop
      exact fun hij => hop hij.symm
    show Memory.mapLookup (Memory.mapInsert st j ⟨j, a, b⟩) i = some u
    rw [mapLookup_mapInsert_ne st _ hne, h]
  | get j => exact h
  | remove j =>
    have hne : i ≠ j := by
      simp [Op.touches] at hop
      exact fun hij => hop hij.symm
    show Memory.mapLookup (Memory.mapErase st j) i = some u
    rw [mapLookup_mapErase_ne st hne, h]
  | list => exact h

theorem runMemOps_binding (mid : List Op) : ∀ (st : MemState) (i : Uuid) (u : User),
    Memory.mapLookup st i = some u → (∀ op ∈ mid, Op.touches i op = false) →
    Memory.mapLookup (runMemOps st mid).2 i = some u := by
  induction mid with
  | nil => exact fun st i u h _ => h
  | cons op t ih =>
    intro st i u h hmid
    rw [runMemOps_cons]
    exact ih (runMemOp st op).2 i u
      (runMemOp_binding st op i u h (hmid op (List.mem_cons_self op t)))
      (fun q hq => hmid q (List.mem_cons_of_mem op hq))

theorem runSqliteOp_binding (db : SqliteDb) (op : Op) (i : Uuid) (row : SqlxUserRow)
    (h : db.rows.find? (Sqlite.rowFor (uuidToString i)) = some row)
    (hop : Op.touches i op = false) :
    (runSqliteOp db op).2.rows.find? (Sqlite.rowFor (uuidToString i)) = some row := by
  cases op with
  | add j a b =>
    by_cases hany : db.rows.any (Sqlite.rowFor (uuidToString j)) = true
    · simp [runSqliteOp, Sqlite.add_user, hany]
      exact h
    · have hany' : db.rows.any (Sqlite.rowFor (uuidToString j)) = false := by
        simpa using hany
      simp only [runSqliteOp, Sqlite.add_user, hany', Bool.false_eq_true, if_false]
      rw [List.find?_append, h]
      rfl
  | get j => exact h
  | remove j =>
    have hne : i ≠ j := by
      simp [Op.touches] at hop
      exact fun hij => hop hij.symm
    cases hfind : db.rows.find? (Sqlite.rowFor (uuidToString j)) with
    | none =>
      simp only [runSqliteOp, Sqlite.remove_user, Sqlite.txOk, hfind]
      exact h
    | some row' =>
      cases hdec : row'.try_into_user with
      | error e =>
        simp only [runSqliteOp, Sqlite.remove_user, Sqlite.txOk, hfind, hdec]
        exact h
      | ok user =>
        simp only [runSqliteOp, Sqlite.remove_user, Sqlite.txOk, hfind, hdec]
        rw [find?_filter_of_imp _ _ _ ?_, h]
        intro r hr
        have hrid : r.id = uuidToString i := by
          simpa [Sqlite.rowFor] using hr
        simp [hrid]
        exact fun hc => hne (uuidToString_injective hc)
  | list => exact h

theorem runSqliteOps_binding (mid : List Op) :
    ∀ (db : SqliteDb) (i : Uuid) (row : SqlxUserRow),
    db.rows.find? (Sqlite.rowFor (uuidToString i)) = some row →
    (∀ op ∈ mid, Op.touches i op = false) →
    (runSqliteOps db mid).2.rows.find? (Sqlite.rowFor (uuidToString i)) = some row := by
  induction mid with
  | nil => exact fun db i row h _ => h
  | cons op t ih =>
    intro db i row h hmid
    rw [runSqliteOps_cons]
    exact ih (runSqliteOp db op).2 i row
      (runSqliteOp_binding db op i row h (hmid op (List.mem_cons_self op t)))
      (fun q hq => hmid q (List.mem_cons_of_mem op hq))

theorem runMongoOp_binding (db : MongoDb) (op : Op) (i : Uuid) (d : MongoUserDoc)
    (h : db.docs.find? (Mongo.docFor (uuidToString i)) = some d)
    (hop : Op.touches i op = false) :
    (runMongoOp db op).2.docs.find? (Mongo.docFor (uuidToString i)) = some d := by
  cases op with
  | add j a b =>
    by_cases hany : db.docs.any (Mongo.docFor (uuidToString j)) = true
    · simp [runMongoOp, Mongo.add_user, hany]
      exact h
    · have hany' : db.docs.any (Mongo.docFor (uuidToString j)) = false := by
        simpa using hany
      simp only [runMongoOp, Mongo.add_user, hany', Bool.false_eq_true, if_false]
      rw [List.find?_append, h]
      rfl
  | get j => exact h
  | remove j =>
    have hne : i ≠ j := by
      simp [Op.touches] at hop
      exact fun hij => hop hij.symm
    cases hfind : db.docs.find? (Mongo.docFor (uuidToString j)) with
    | none =>
      simp only [runMongoOp, Mongo.remove_user, hfind]
      exact h
    | some d' =>
      simp only [runMongoOp, Mongo.remove_user, hfind]
      rw [find?_eraseP_of_disjoint _ _ _ ?_, h]
      intro x hx
      have hxu : x.uuid = uuidToString i := by
        simpa [Mongo.docFor] using hx
      simp [Mongo.docFor, hxu]
      exact fun hc => hne (uuidToString_injective hc)
  | list => exact h

theorem runMongoOps_binding (mid : List Op) :
    ∀ (db : MongoDb) (i : Uuid) (d : MongoUserDoc),
    db.docs.find? (Mongo.docFor (uuidToString i)) = some d →
    (∀ op ∈ mid, Op.touches i op = false) →
    (runMongoOps db mid).2.docs.find? (Mongo.docFor (uuidToString i)) = some d := by
  induction mid with
  | nil => exact fun db i d h _ => h
  | cons op t ih =>
    intro db i d h hmid
    rw [runMongoOps_cons]
    exact ih (runMongoOp db op).2 i d
      (runMongoOp_binding db op i d h (hmid op (List.mem_cons_self op t)))
      (fun q hq => hmid q (List.mem_cons_of_mem op hq))

/-! ## Helpers for the claim statements -/

/-- Whether a repository result is an `Unexpected` error. -/
def isUnexpectedErr {α : Type} : Except UserRepoError α → Bool
  | .error (.unexpected _) => true
  | _ => false

theorem except_bind_ok {ε α β : Type} (a : α) (f : α → Except ε β) :
    (Except.ok a >>= f) = f a := rfl

theorem except_bind_error {ε α β : Type} (e : ε) (f : α → Except ε β) :
    ((Except.error e : Except ε α) >>= f) = Except.error e := rfl

theorem try_into_user_of_bad (d : MongoUserDoc) (h : parseUuid d.uuid = none) :
    d.try_into_user = .error (.unexpected ("invalid uuid: " ++ d.uuid)) := by
  simp [MongoUserDoc.try_into_user, h]

theorem mapM_error_of_bad_doc (docs : List MongoUserDoc) :
    ∀ (d : MongoUserDoc), d ∈ docs → parseUuid d.uuid = none →
    isUnexpectedErr (docs.mapM MongoUserDoc.try_into_user) = true := by
  induction docs with
  | nil => intro d hd; simp at hd
  | cons a t ih =>
    intro d hd hbad
    cases hparse : parseUuid a.uuid with
    | none =>
      rw [List.mapM_cons, try_into_user_of_bad a hparse, except_bind_error]
      rfl
    | some x =>
      have hda : d ≠ a := fun he => by
        rw [he] at hbad
        rw [hbad] at hparse
        cases hparse
      have hdt : d ∈ t := by
        rcases List.mem_cons.mp hd with h1 | h2
        · exact absurd h1 hda
        · exact h2
      have hA : a.try_into_user = .ok ⟨x, a.username, a.email⟩ := by
        simp [MongoUserDoc.try_into_user, hparse]
      rw [List.mapM_cons, hA, except_bind_ok]
      have htt := ih d hdt hbad
      cases htail : t.mapM MongoUserDoc.try_into_user with
      | error e =>
        rw [htail] at htt
        rw [except_bind_error]
        exact htt
      | ok us =>
        rw [htail] at htt
        simp [isUnexpectedErr] at htt

theorem mapM_ok_forall₂ (docs : List MongoUserDoc) : ∀ (us : List User),
    docs.mapM MongoUserDoc.try_into_user = .ok us →
    List.Forall₂ (fun (d : MongoUserDoc) (u : User) =>
      parseUuid d.uuid = some u.id ∧ u.username = d.username ∧ u.email = d.email)
      docs us := by
  induction docs with
  | nil =>
    intro us h
    have : us = [] := by
      have : (Except.ok [] : Except UserRepoError (List User)) = .ok us := h
      exact (Except.ok.injEq _ _).mp this |>.symm
    rw [this]
    exact List.Forall₂.nil
  | cons a t ih =>
    intro us h
    cases hparse : parseUuid a.uuid with
    | none =>
      rw [List.mapM_cons, try_into_user_of_bad a hparse, except_bind_error] at h
      cases h
    | some x =>
      have hA : a.try_into_user = .ok ⟨x, a.username, a.email⟩ := by
        simp [MongoUserDoc.try_into_user, hparse]
      rw [List.mapM_cons, hA, except_bind_ok] at h
      cases htail : t.mapM MongoUserDoc.try_into_user with
      | error e =>
        rw [htail, except_bind_error] at h
        cases h
      | ok vs =>
        rw [htail, except_bind_ok] at h
        have hus : us = ⟨x, a.username, a.email⟩ :: vs := by
          have : (Except.ok ((⟨x, a.username, a.email⟩ : User) :: vs) :
              Except UserRepoError (List User)) = .ok us := h
          exact ((Except.ok.injEq _ _).mp this).symm
        rw [hus]
        exact List.Forall₂.cons ⟨hparse, rfl, rfl⟩ (ih vs htail)

theorem find?_filter_ne_none (rows : List SqlxUserRow) (s : String) :
    (rows.filter (fun r => decide (r.id ≠ s))).find? (Sqlite.rowFor s) = none := by
  rw [List.find?_eq_none]
  intro r hr
  have := List.of_mem_filter hr
  simp at this
  simp [Sqlite.rowFor, this]

theorem pairwise_docFor_of_nodup (docs : List MongoUserDoc) (s : String)
    (hnodup : (docs.map MongoUserDoc.uuid).Nodup) :
    docs.Pairwise (fun a b => Mongo.docFor s a = true → Mongo.docFor s b = false) := by
  have hpair : docs.Pairwise (fun a b => a.uuid ≠ b.uuid) :=
    List.pairwise_map.mp hnodup
  refine hpair.imp ?_
  intro a b hab ha
  have hau : a.uuid = s := of_decide_eq_true ha
  have : b.uuid ≠ s := fun hb => hab (hau ▸ hb ▸ rfl)
  simpa [Mongo.docFor] using this

theorem find?_filter_not_none {α : Type} (l : List α) (q : α → Bool) :
    (l.filter (fun x => !q x)).find? q = none := by
  rw [List.find?_eq_none]
  intro x hx
  have := List.of_mem_filter hx
  simpa using this

theorem find?_eraseP_self_none (docs : List MongoUserDoc) (s : String)
    (hnodup : (docs.map MongoUserDoc.uuid).Nodup) :
    (docs.eraseP (Mongo.docFor s)).find? (Mongo.docFor s) = none := by
  rw [eraseP_eq_filter_not docs _ (pairwise_docFor_of_nodup docs s hnodup)]
  exact find?_filter_not_none docs (Mongo.docFor s)

/-! ## Claim theorems -/

/-- C1 (counterexample): the spec says a database-level constraint
violation during the relational add_user is classified as Conflict, but
map_sqlx_err sends Error::Database to Unexpected: at the concrete
database error below, add_user surfaces Unexpected and not Conflict. -/
theorem C1_counterexample :
    (Sqlite.add_user ⟨[]⟩ uuid0 "johndoe" "johndoe@example.com"
        (some (.database "UNIQUE constraint failed: users.username"))).1
      = .error (.unexpected "UNIQUE constraint failed: users.username") ∧
    UserRepoError.isConflict
      (.unexpected "UNIQUE constraint failed: users.username") = false := by
  exact ⟨rfl, rfl⟩

/-- C1 (amended): when the relational add_user's insert fails, the error
is classified by map_sqlx_err: a closed or exhausted pool yields
Unavailable, and every other failure, database-level constraint
violations included, yields Unexpected; Conflict is never produced. -/
theorem C1_sqlite_add_error_classification :
    ∀ (db : SqliteDb) (i : Uuid) (u e : String) (err : SqlxError),
    (Sqlite.add_user db i u e (some err)).1 = .error (map_sqlx_err err) ∧
    (map_sqlx_err err = .unavailable ↔
      (err = .poolClosed ∨ err = .poolTimedOut)) ∧
    (map_sqlx_err err).isConflict = false ∧
    ((err ≠ .poolClosed ∧ err ≠ .poolTimedOut) →
      (map_sqlx_err err).isUnexpected = true) := by
  intro db i u e err
  refine ⟨rfl, ?_, ?_, ?_⟩
  · cases err <;> simp [map_sqlx_err]
  · cases err <;> simp [map_sqlx_err, UserRepoError.isConflict]
  · intro h
    cases err with
    | poolClosed => exact absurd rfl h.1
    | poolTimedOut => exact absurd rfl h.2
    | database m => rfl
    | other m => rfl

/-- C1 (witness): the amended classification at a concrete database
error. -/
theorem C1_witness :
    (Sqlite.add_user ⟨[]⟩ uuid0 "a" "b" (some (.database "boom"))).1
      = .error (map_sqlx_err (.database "boom")) ∧
    (map_sqlx_err (.database "boom") = .unavailable ↔
      (SqlxError.database "boom" = .poolClosed ∨
       SqlxError.database "boom" = .poolTimedOut)) ∧
    (map_sqlx_err (.database "boom")).isConflict = false ∧
    (map_sqlx_err (.database "boom")).isUnexpected = true := by
  have h := C1_sqlite_add_error_classification ⟨[]⟩ uuid0 "a" "b" (.database "boom")
  exact ⟨h.1, h.2.1, h.2.2.1, h.2.2.2 ⟨by decide, by decide⟩⟩

/-- C7: every native error the document-store classifier does not
recognize as a connectivity signal is classified as Unexpected, never
as Unavailable; and no error whatsoever is classified as Conflict. -/
theorem C7_mongo_unrecognized_is_unexpected :
    ∀ (e : MongoError),
    (isConnectivitySignal e = false →
      map_mongo_err e = .unexpected e ∧ map_mongo_err e ≠ .unavailable) ∧
    (map_mongo_err e).isConflict = false := by
  intro e
  constructor
  · intro h
    refine ⟨by simp [map_mongo_err, h], ?_⟩
    simp [map_mongo_err, h]
  · by_cases h : isConnectivitySignal e <;>
      simp [map_mongo_err, h, UserRepoError.isConflict]

/-- C7 (witness): a duplicate-key message contains no connectivity
substring, so it is classified as Unexpected. -/
theorem C7_witness :
    map_mongo_err "E11000 duplicate key error index: uuid_1"
      = .unexpected "E11000 duplicate key error index: uuid_1" ∧
    map_mongo_err "E11000 duplicate key error index: uuid_1" ≠ .unavailable ∧
    (map_mongo_err "E11000 duplicate key error index: uuid_1").isConflict = false := by
  have h := C7_mongo_unrecognized_is_unexpected "E11000 duplicate key error index: uuid_1"
  have h1 := h.1 (by decide)
  exact ⟨h1.1, h1.2, h.2⟩

/-- C3: in the document-store backend, a stored document whose id fails
to decode makes list_users return an Unexpected error; when list_users
succeeds, every returned record decodes its user fields and identifier
from the stored document, so nothing is skipped and no fresh identifier
is substituted. -/
theorem C3_list_users_decode_failures :
    (∀ (db : MongoDb) (d : MongoUserDoc), d ∈ db.docs → parseUuid d.uuid = none →
      isUnexpectedErr (Mongo.list_users db none none) = true) ∧
    (∀ (db : MongoDb) (us : List User), Mongo.list_users db none none = .ok us →
      List.Forall₂ (fun (d : MongoUserDoc) (u : User) =>
        parseUuid d.uuid = some u.id ∧ u.username = d.username ∧ u.email = d.email)
        db.docs us) := by
  constructor
  · intro db d hd hbad
    exact mapM_error_of_bad_doc db.docs d hd hbad
  · intro db us h
    exact mapM_ok_forall₂ db.docs us h

/-- C3 (witness): a collection holding one document with an unparsable
identifier makes list_users fail with an Unexpected error. -/
theorem C3_witness :
    isUnexpectedErr
      (Mongo.list_users ⟨[⟨0, "not-a-uuid", "a", "b"⟩], 1⟩ none none) = true := by
  exact C3_list_users_decode_failures.1 ⟨[⟨0, "not-a-uuid", "a", "b"⟩], 1⟩
    ⟨0, "not-a-uuid", "a", "b"⟩ (by simp) (by decide)

/-- C2: for all three backends, remove_user is atomic delete-and-return:
either it returns the pre-deletion value (the one get_user would have
returned) and the record's entry is deleted from the stored state, or it
returns an empty result or an error and the stored state is untouched;
for the relational backend this holds for every combination of outcomes
of the five driver calls inside the transaction. -/
theorem C2_remove_user_atomic :
    (∀ (st : MemState) (i : Uuid),
      (∃ u, (Memory.remove_user st i).1 = .ok (some u) ∧
        Memory.get_user st i = .ok (some u) ∧
        Memory.get_user (Memory.remove_user st i).2 i = .ok none) ∨
      ((Memory.remove_user st i).1 = .ok none ∧
        (Memory.remove_user st i).2 = st)) ∧
    (∀ (db : SqliteDb) (i : Uuid) (tx : Sqlite.TxOutcomes),
      (∃ u, (Sqlite.remove_user db i tx).1 = .ok (some u) ∧
        Sqlite.get_user db i none = .ok (some u) ∧
        (Sqlite.remove_user db i tx).2.rows =
          db.rows.filter (fun r => decide (r.id ≠ uuidToString i))) ∨
      ((Sqlite.remove_user db i tx).1 = .ok none ∧
        (Sqlite.remove_user db i tx).2 = db) ∨
      (∃ er, (Sqlite.remove_user db i tx).1 = .error er ∧
        (Sqlite.remove_user db i tx).2 = db)) ∧
    (∀ (db : MongoDb) (i : Uuid) (io : Option MongoError),
      (∃ u, (Mongo.remove_user db i io).1 = .ok (some u) ∧
        Mongo.get_user db i none = .ok (some u) ∧
        (Mongo.remove_user db i io).2.docs =
          db.docs.eraseP (Mongo.docFor (uuidToString i))) ∨
      ((Mongo.remove_user db i io).1 = .ok none ∧
        (Mongo.remove_user db i io).2 = db) ∨
      (∃ er, (Mongo.remove_user db i io).1 = .error er ∧
        (Mongo.remove_user db i io).2 = db)) := by
  refine ⟨?_, ?_, ?_⟩
  · intro st i
    cases hlook : Memory.mapLookup st i with
    | some u =>
      left
      exact ⟨u, by simp [Memory.remove_user, hlook], by simp [Memory.get_user, hlook],
        by simp [Memory.remove_user, Memory.get_user, mapLookup_mapErase_self]⟩
    | none =>
      right
      exact ⟨by simp [Memory.remove_user, hlook],
        by simp [Memory.remove_user, mapErase_of_lookup_none hlook]⟩
  · intro db i tx
    obtain ⟨tb, ts, tr, td, tc⟩ := tx
    cases tb with
    | some e =>
      right; right
      exact ⟨map_sqlx_err e, by simp [Sqlite.remove_user], by simp [Sqlite.remove_user]⟩
    | none =>
    cases ts with
    | some e =>
      right; right
      exact ⟨map_sqlx_err e, by simp [Sqlite.remove_user], by simp [Sqlite.remove_user]⟩
    | none =>
    cases hfind : db.rows.find? (Sqlite.rowFor (uuidToString i)) with
    | none =>
      cases tr with
      | some e =>
        right; right
        exact ⟨map_sqlx_err e, by simp [Sqlite.remove_user, hfind],
          by simp [Sqlite.remove_user, hfind]⟩
      | none =>
        right; left
        exact ⟨by simp [Sqlite.remove_user, hfind], by simp [Sqlite.remove_user, hfind]⟩
    | some row =>
      cases hdec : row.try_into_user with
      | error er =>
        right; right
        exact ⟨er, by simp [Sqlite.remove_user, hfind, hdec],
          by simp [Sqlite.remove_user, hfind, hdec]⟩
      | ok u =>
        cases td with
        | some e =>
          right; right
          exact ⟨map_sqlx_err e, by simp [Sqlite.remove_user, hfind, hdec],
            by simp [Sqlite.remove_user, hfind, hdec]⟩
        | none =>
        cases tc with
        | some e =>
          right; right
          exact ⟨map_sqlx_err e, by simp [Sqlite.remove_user, hfind, hdec],
            by simp [Sqlite.remove_user, hfind, hdec]⟩
        | none =>
          left
          refine ⟨u, by simp [Sqlite.remove_user, hfind, hdec], ?_,
            by simp [Sqlite.remove_user, hfind, hdec]⟩
          simp [Sqlite.get_user, hfind, hdec, Except.map]
  · intro db i io
    cases io with
    | some e =>
      right; right
      exact ⟨map_mongo_err e, by simp [Mongo.remove_user], by simp [Mongo.remove_user]⟩
    | none =>
    cases hfind : db.docs.find? (Mongo.docFor (uuidToString i)) with
    | none =>
      right; left
      exact ⟨by simp [Mongo.remove_user, hfind], by simp [Mongo.remove_user, hfind]⟩
    | some d =>
      have hdu : d.uuid = uuidToString i := by
        have := List.find?_some hfind
        simpa [Mongo.docFor] using this
      have hdec : d.try_into_user = .ok ⟨i, d.username, d.email⟩ := by
        simp [MongoUserDoc.try_into_user, hdu, parseUuid_uuidToString]
      left
      refine ⟨⟨i, d.username, d.email⟩,
        by simp [Mongo.remove_user, hfind, hdec, Except.map], ?_,
        by simp [Mongo.remove_user, hfind, hdec]⟩
      simp [Mongo.get_user, hfind, hdec, Except.map]

/-- C5: on a present identifier, remove_user returns the pre-deletion
value and a subsequent get_user on that identifier returns an empty
result, in both the in-memory and the relational backend. -/
theorem C5_remove_present_then_absent :
    (∀ (st : MemState) (i : Uuid) (u : User),
      Memory.get_user st i = .ok (some u) →
      (Memory.remove_user st i).1 = .ok (some u) ∧
      Memory.get_user (Memory.remove_user st i).2 i = .ok none) ∧
    (∀ (db : SqliteDb) (i : Uuid) (u : User),
      Sqlite.get_user db i none = .ok (some u) →
      (Sqlite.remove_user db i Sqlite.txOk).1 = .ok (some u) ∧
      Sqlite.get_user (Sqlite.remove_user db i Sqlite.txOk).2 i none = .ok none) := by
  constructor
  · intro st i u h
    have hlook : Memory.mapLookup st i = some u := by
      simpa [Memory.get_user] using h
    refine ⟨by simp [Memory.remove_user, hlook], ?_⟩
    simp [Memory.get_user, Memory.remove_user, mapLookup_mapErase_self]
  · intro db i u h
    cases hfind : db.rows.find? (Sqlite.rowFor (uuidToString i)) with
    | none =>
      rw [Sqlite.get_user, hfind] at h
      cases h
    | some row =>
      simp only [Sqlite.get_user, hfind] at h
      cases hdec : row.try_into_user with
      | error er =>
        rw [hdec] at h
        cases h
      | ok v =>
        rw [hdec] at h
        have huv : v = u := by
          simpa [Except.map] using h
        subst huv
        refine ⟨by simp [Sqlite.remove_user, Sqlite.txOk, hfind, hdec], ?_⟩
        have hstate : (Sqlite.remove_user db i Sqlite.txOk).2.rows =
            db.rows.filter (fun r => decide (r.id ≠ uuidToString i)) := by
          simp [Sqlite.remove_user, Sqlite.txOk, hfind, hdec]
        rw [Sqlite.get_user, hstate, find?_filter_ne_none]

/-- C5 (witness): removing a present record from concrete one-element
stores returns it, and the following lookup is empty. -/
theorem C5_witness :
    ((Memory.remove_user [(uuid0, ⟨uuid0, "a", "b"⟩)] uuid0).1
        = .ok (some ⟨uuid0, "a", "b"⟩) ∧
      Memory.get_user (Memory.remove_user [(uuid0, ⟨uuid0, "a", "b"⟩)] uuid0).2 uuid0
        = .ok none) ∧
    ((Sqlite.remove_user ⟨[⟨uuidToString uuid0, "a", "b"⟩]⟩ uuid0 Sqlite.txOk).1
        = .ok (some ⟨uuid0, "a", "b"⟩) ∧
      Sqlite.get_user
        (Sqlite.remove_user ⟨[⟨uuidToString uuid0, "a", "b"⟩]⟩ uuid0 Sqlite.txOk).2
        uuid0 none = .ok none) := by
  exact ⟨C5_remove_present_then_absent.1 [(uuid0, ⟨uuid0, "a", "b"⟩)] uuid0
      ⟨uuid0, "a", "b"⟩ (by decide),
    C5_remove_present_then_absent.2 ⟨[⟨uuidToString uuid0, "a", "b"⟩]⟩ uuid0
      ⟨uuid0, "a", "b"⟩ (by decide)⟩

/-- C6: removing a never-added or already-removed identifier returns an
empty result, not an error, and leaves the state (hence the listing)
unchanged; removing the same present identifier twice yields the value
and then an empty result, in the in-memory and document-store backends
(the latter under its unique-index invariant). -/
theorem C6_remove_absent_idempotent :
    (∀ (st : MemState) (i : Uuid),
      Memory.get_user st i = .ok none →
      (Memory.remove_user st i).1 = .ok none ∧
      (Memory.remove_user st i).2 = st ∧
      Memory.list_users (Memory.remove_user st i).2 = Memory.list_users st) ∧
    (∀ (db : MongoDb) (i : Uuid),
      Mongo.get_user db i none = .ok none →
      (Mongo.remove_user db i none).1 = .ok none ∧
      (Mongo.remove_user db i none).2 = db ∧
      Mongo.list_users (Mongo.remove_user db i none).2 none none =
        Mongo.list_users db none none) ∧
    (∀ (st : MemState) (i : Uuid) (u : User),
      Memory.get_user st i = .ok (some u) →
      (Memory.remove_user st i).1 = .ok (some u) ∧
      (Memory.remove_user (Memory.remove_user st i).2 i).1 = .ok none) ∧
    (∀ (db : MongoDb) (i : Uuid) (u : User),
      DocsNodup db →
      Mongo.get_user db i none = .ok (some u) →
      (Mongo.remove_user db i none).1 = .ok (some u) ∧
      (Mongo.remove_user (Mongo.remove_user db i none).2 i none).1 = .ok none) := by
  refine ⟨?_, ?_, ?_, ?_⟩
  · intro st i h
    have hlook : Memory.mapLookup st i = none := by
      simpa [Memory.get_user] using h
    have hst : Memory.mapErase st i = st := mapErase_of_lookup_none hlook
    exact ⟨by simp [Memory.remove_user, hlook], by simp [Memory.remove_user, hst],
      by simp [Memory.remove_user, hst]⟩
  · intro db i h
    have hfind : db.docs.find? (Mongo.docFor (uuidToString i)) = none := by
      cases hf : db.docs.find? (Mongo.docFor (uuidToString i)) with
      | none => rfl
      | some d =>
        simp only [Mongo.get_user, hf] at h
        cases hdec : d.try_into_user with
        | error er => rw [hdec] at h; cases h
        | ok v =>
          rw [hdec] at h
          simp [Except.map] at h
    exact ⟨by simp [Mongo.remove_user, hfind], by simp [Mongo.remove_user, hfind],
      by simp [Mongo.remove_user, hfind]⟩
  · intro st i u h
    have hlook : Memory.mapLookup st i = some u := by
      simpa [Memory.get_user] using h
    exact ⟨by simp [Memory.remove_user, hlook],
      by simp [Memory.remove_user, mapLookup_mapErase_self]⟩
  · intro db i u hnodup h
    cases hfind : db.docs.find? (Mongo.docFor (uuidToString i)) with
    | none =>
      rw [Mongo.get_user, hfind] at h
      cases h
    | some d =>
      simp only [Mongo.get_user, hfind] at h
      cases hdec : d.try_into_user with
      | error er => rw [hdec] at h; cases h
      | ok v =>
        rw [hdec] at h
        have huv : v = u := by
          simpa [Except.map] using h
        subst huv
        refine ⟨by simp [Mongo.remove_user, hfind, hdec, Except.map], ?_⟩
        have hstate : (Mongo.remove_user db i none).2.docs =
            db.docs.eraseP (Mongo.docFor (uuidToString i)) := by
          simp [Mongo.remove_user, hfind]
        have hfind2 : (Mongo.remove_user db i none).2.docs.find?
            (Mongo.docFor (uuidToString i)) = none := by
          rw [hstate]
          exact find?_eraseP_self_none db.docs (uuidToString i) hnodup
        have hsecond : ∀ (db1 : MongoDb),
            db1.docs.find? (Mongo.docFor (uuidToString i)) = none →
            (Mongo.remove_user db1 i none).1 = .ok none := by
          intro db1 hf1
          simp [Mongo.remove_user, hf1]
        exact hsecond _ hfind2

/-- C6 (witness): the absent and double-remove behaviour at a concrete
identifier and one-document stores. -/
theorem C6_witness :
    ((Memory.remove_user [] uuid0).1 = .ok none ∧
      (Memory.remove_user [] uuid0).2 = [] ∧
      Memory.list_users (Memory.remove_user [] uuid0).2 = Memory.list_users []) ∧
    ((Mongo.remove_user ⟨[⟨0, uuidToString uuid1, "a", "b"⟩], 1⟩ uuid0 none).1
        = .ok none) ∧
    ((Memory.remove_user [(uuid0, ⟨uuid0, "a", "b"⟩)] uuid0).1
        = .ok (some ⟨uuid0, "a", "b"⟩) ∧
      (Memory.remove_user
        (Memory.remove_user [(uuid0, ⟨uuid0, "a", "b"⟩)] uuid0).2 uuid0).1
        = .ok none) ∧
    ((Mongo.remove_user ⟨[⟨0, uuidToString uuid0, "a", "b"⟩], 1⟩ uuid0 none).1
        = .ok (some ⟨uuid0, "a", "b"⟩) ∧
      (Mongo.remove_user
        (Mongo.remove_user ⟨[⟨0, uuidToString uuid0, "a", "b"⟩], 1⟩ uuid0 none).2
        uuid0 none).1 = .ok none) := by
  refine ⟨C6_remove_absent_idempotent.1 [] uuid0 (by decide), ?_, ?_, ?_⟩
  · exact (C6_remove_absent_idempotent.2.1 ⟨[⟨0, uuidToString uuid1, "a", "b"⟩], 1⟩
      uuid0 (by decide)).1
  · exact C6_remove_absent_idempotent.2.2.1 [(uuid0, ⟨uuid0, "a", "b"⟩)] uuid0
      ⟨uuid0, "a", "b"⟩ (by decide)
  · exact C6_remove_absent_idempotent.2.2.2 ⟨[⟨0, uuidToString uuid0, "a", "b"⟩], 1⟩
      uuid0 ⟨uuid0, "a", "b"⟩ (by simp [DocsNodup]) (by decide)

/-- C9 (counterexample): no backend validates input text, so add_user
happily stores and returns a record with an empty username and an empty
email, refuting the claim that every stored or returned record has
non-empty fields. -/
theorem C9_counterexample :
    (Memory.add_user [] uuid0 "" "").1 = .ok ⟨uuid0, "", ""⟩ ∧
    Memory.get_user (Memory.add_user [] uuid0 "" "").2 uuid0
      = .ok (some ⟨uuid0, "", ""⟩) ∧
    (Sqlite.add_user ⟨[]⟩ uuid0 "" "" none).1 = .ok ⟨uuid0, "", ""⟩ ∧
    (⟨uuid0, "", ""⟩ : User).username = "" := by
  exact ⟨rfl, by decide, rfl, rfl⟩

/-- C9 (amended): add_user stores and returns exactly the
caller-supplied username and email, so the returned record's fields are
non-empty precisely when the caller's inputs are non-empty; no
validation is performed by the repository. -/
theorem C9_add_user_echoes_inputs :
    ∀ (st : MemState) (db : SqliteDb) (i : Uuid) (u e : String),
    (Memory.add_user st i u e).1 = .ok ⟨i, u, e⟩ ∧
    Memory.get_user (Memory.add_user st i u e).2 i = .ok (some ⟨i, u, e⟩) ∧
    (db.rows.any (Sqlite.rowFor (uuidToString i)) = false →
      (Sqlite.add_user db i u e none).1 = .ok ⟨i, u, e⟩) ∧
    (u ≠ "" → e ≠ "" →
      ∀ v : User, (Memory.add_user st i u e).1 = .ok v →
        v.username ≠ "" ∧ v.email ≠ "") := by
  intro st db i u e
  refine ⟨rfl, ?_, ?_, ?_⟩
  · show Except.ok (Memory.mapLookup (Memory.mapInsert st i ⟨i, u, e⟩) i) = _
    rw [mapLookup_mapInsert_self]
  · intro hany
    simp [Sqlite.add_user, hany]
  · intro hu he v hv
    have : (⟨i, u, e⟩ : User) = v := by
      simpa [Memory.add_user] using hv
    rw [← this]
    exact ⟨hu, he⟩

/-- C9 (witness): the amended statement at concrete non-empty inputs. -/
theorem C9_witness :
    (Memory.add_user [] uuid0 "johndoe" "johndoe@example.com").1
      = .ok ⟨uuid0, "johndoe", "johndoe@example.com"⟩ ∧
    (Sqlite.add_user ⟨[]⟩ uuid0 "johndoe" "johndoe@example.com" none).1
      = .ok ⟨uuid0, "johndoe", "johndoe@example.com"⟩ ∧
    ((⟨uuid0, "johndoe", "johndoe@example.com"⟩ : User).username ≠ "" ∧
      (⟨uuid0, "johndoe", "johndoe@example.com"⟩ : User).email ≠ "") := by
  have h := C9_add_user_echoes_inputs [] ⟨[]⟩ uuid0 "johndoe" "johndoe@example.com"
  exact ⟨h.1, h.2.2.1 (by decide),
    h.2.2.2 (by decide) (by decide) _ h.1⟩

/-- C4: every backend keeps at most one stored record per identifier
across arbitrary operation sequences, and after add_user mints a record
its identifier resolves via get_user to exactly the returned value
until an operation removes (or re-adds) that identifier; for the
persistent backends the minted identifier must be fresh, which random
UUID generation is assumed to provide. -/
theorem C4_identifier_uniqueness_and_resolution :
    (∀ (ops : List Op) (st : MemState), KeysNodup st →
      KeysNodup (runMemOps st ops).2) ∧
    (∀ (ops : List Op) (db : SqliteDb), RowsNodup db →
      RowsNodup (runSqliteOps db ops).2) ∧
    (∀ (ops : List Op) (db : MongoDb), DocsNodup db →
      DocsNodup (runMongoOps db ops).2) ∧
    (∀ (st : MemState) (i : Uuid) (u e : String) (mid : List Op),
      (∀ op ∈ mid, Op.touches i op = false) →
      (Memory.add_user st i u e).1 = .ok ⟨i, u, e⟩ ∧
      Memory.get_user (runMemOps (Memory.add_user st i u e).2 mid).2 i
        = .ok (some ⟨i, u, e⟩)) ∧
    (∀ (db : SqliteDb) (i : Uuid) (u e : String) (mid : List Op),
      db.rows.any (Sqlite.rowFor (uuidToString i)) = false →
      (∀ op ∈ mid, Op.touches i op = false) →
      (Sqlite.add_user db i u e none).1 = .ok ⟨i, u, e⟩ ∧
      Sqlite.get_user (runSqliteOps (Sqlite.add_user db i u e none).2 mid).2 i none
        = .ok (some ⟨i, u, e⟩)) ∧
    (∀ (db : MongoDb) (i : Uuid) (u e : String) (mid : List Op),
      db.docs.any (Mongo.docFor (uuidToString i)) = false →
      (∀ op ∈ mid, Op.touches i op = false) →
      (Mongo.add_user db i u e none).1 = .ok ⟨i, u, e⟩ ∧
      Mongo.get_user (runMongoOps (Mongo.add_user db i u e none).2 mid).2 i none
        = .ok (some ⟨i, u, e⟩)) := by
  refine ⟨fun ops st h => runMemOps_keysNodup ops st h,
    fun ops db h => runSqliteOps_rowsNodup ops db h,
    fun ops db h => runMongoOps_docsNodup ops db h, ?_, ?_, ?_⟩
  · intro st i u e mid hmid
    refine ⟨rfl, ?_⟩
    have h0 : Memory.mapLookup (Memory.add_user st i u e).2 i = some ⟨i, u, e⟩ :=
      mapLookup_mapInsert_self st i ⟨i, u, e⟩
    have h1 := runMemOps_binding mid (Memory.add_user st i u e).2 i ⟨i, u, e⟩ h0 hmid
    show Except.ok (Memory.mapLookup (runMemOps (Memory.add_user st i u e).2 mid).2 i) = _
    rw [h1]
  · intro db i u e mid hany hmid
    have hfnone : db.rows.find? (Sqlite.rowFor (uuidToString i)) = none := by
      rw [List.find?_eq_none]
      intro r hr hrp
      exact absurd (List.any_eq_true.mpr ⟨r, hr, hrp⟩) (by simp [hany])
    have hstate : (Sqlite.add_user db i u e none).2.rows =
        db.rows ++ [⟨uuidToString i, u, e⟩] := by
      simp [Sqlite.add_user, hany]
    refine ⟨by simp [Sqlite.add_user, hany], ?_⟩
    have h0 : (Sqlite.add_user db i u e none).2.rows.find?
        (Sqlite.rowFor (uuidToString i)) = some ⟨uuidToString i, u, e⟩ := by
      rw [hstate, List.find?_append, hfnone]
      simp [Sqlite.rowFor]
    have h1 := runSqliteOps_binding mid (Sqlite.add_user db i u e none).2 i
      ⟨uuidToString i, u, e⟩ h0 hmid
    rw [Sqlite.get_user, h1]
    simp [SqlxUserRow.try_into_user, parseUuid_uuidToString, Except.map]
  · intro db i u e mid hany hmid
    have hfnone : db.docs.find? (Mongo.docFor (uuidToString i)) = none := by
      rw [List.find?_eq_none]
      intro d hd hdp
      exact absurd (List.any_eq_true.mpr ⟨d, hd, hdp⟩) (by simp [hany])
    have hstate : (Mongo.add_user db i u e none).2.docs =
        db.docs ++ [⟨db.nextOid, uuidToString i, u, e⟩] := by
      simp [Mongo.add_user, hany, MongoUserDoc.from_user]
    refine ⟨by simp [Mongo.add_user, hany], ?_⟩
    have h0 : (Mongo.add_user db i u e none).2.docs.find?
        (Mongo.docFor (uuidToString i)) = some ⟨db.nextOid, uuidToString i, u, e⟩ := by
      rw [hstate, List.find?_append, hfnone]
      simp [Mongo.docFor]
    have h1 := runMongoOps_binding mid (Mongo.add_user db i u e none).2 i
      ⟨db.nextOid, uuidToString i, u, e⟩ h0 hmid
    rw [Mongo.get_user, h1]
    simp [MongoUserDoc.try_into_user, parseUuid_uuidToString, Except.map]

/-- C4 (witness): the add-then-get resolution at concrete inputs with a
non-touching operation in between. -/
theorem C4_witness :
    ((Memory.add_user [] uuid0 "a" "b").1 = .ok ⟨uuid0, "a", "b"⟩ ∧
      Memory.get_user (runMemOps (Memory.add_user [] uuid0 "a" "b").2
        [Op.add uuid1 "c" "d", Op.list]).2 uuid0 = .ok (some ⟨uuid0, "a", "b"⟩)) ∧
    ((Sqlite.add_user ⟨[]⟩ uuid0 "a" "b" none).1 = .ok ⟨uuid0, "a", "b"⟩ ∧
      Sqlite.get_user (runSqliteOps (Sqlite.add_user ⟨[]⟩ uuid0 "a" "b" none).2
        [Op.add uuid1 "c" "d", Op.list]).2 uuid0 none = .ok (some ⟨uuid0, "a", "b"⟩)) ∧
    ((Mongo.add_user ⟨[], 0⟩ uuid0 "a" "b" none).1 = .ok ⟨uuid0, "a", "b"⟩ ∧
      Mongo.get_user (runMongoOps (Mongo.add_user ⟨[], 0⟩ uuid0 "a" "b" none).2
        [Op.add uuid1 "c" "d", Op.list]).2 uuid0 none = .ok (some ⟨uuid0, "a", "b"⟩)) ∧
    KeysNodup (runMemOps [] [Op.add uuid0 "a" "b", Op.remove uuid0]).2 := by
  refine ⟨C4_identifier_uniqueness_and_resolution.2.2.2.1 [] uuid0 "a" "b"
      [Op.add uuid1 "c" "d", Op.list] (by decide),
    C4_identifier_uniqueness_and_resolution.2.2.2.2.1 ⟨[]⟩ uuid0 "a" "b"
      [Op.add uuid1 "c" "d", Op.list] (by decide) (by decide),
    C4_identifier_uniqueness_and_resolution.2.2.2.2.2 ⟨[], 0⟩ uuid0 "a" "b"
      [Op.add uuid1 "c" "d", Op.list] (by decide) (by decide),
    C4_identifier_uniqueness_and_resolution.1
      [Op.add uuid0 "a" "b", Op.remove uuid0] [] (by simp [KeysNodup])⟩

/-- C8: starting from fresh instances, the in-memory, relational, and
document backends produce equivalent externally observable results for
every operation sequence whose minted identifiers are distinct (UUIDv4
collisions are negligible and explicitly unhandled): every returned
value, absence, and error agrees, with listings compared up to
permutation. -/
theorem C8_cross_backend_conformance :
    ∀ (ops : List Op), (addIds ops).Nodup →
    List.Forall₂ outputEquiv (runMemOps [] ops).1 (runSqliteOps ⟨[]⟩ ops).1 ∧
    List.Forall₂ outputEquiv (runMemOps [] ops).1 (runMongoOps ⟨[], 0⟩ ops).1 := by
  intro ops hnd
  have hempty : ∀ (i : Uuid), i ∈ addIds ops → ∀ p ∈ ([] : MemState), p.1 ≠ i := by
    intro i _ p hp
    exact absurd hp (List.not_mem_nil p)
  have hcoh : Coherent ([] : MemState) := fun p hp => absurd hp (List.not_mem_nil p)
  have hkn : KeysNodup ([] : MemState) := List.nodup_nil
  have hsql := runSqliteOps_sim ops [] ⟨[]⟩ rfl hcoh hnd hempty
  have hmongo := runMongoOps_sim ops [] ⟨[], 0⟩ rfl hcoh hkn hnd hempty
  constructor
  · rw [hsql.1]
    exact List.forall₂_same.mpr (fun x _ => outputEquiv_refl x)
  · rw [hmongo.1]
    exact List.forall₂_same.mpr (fun x _ => outputEquiv_refl x)

/-- C8 (witness): the conformance at the spec's concrete scenario
(list, two adds, list, remove, list, get on the removed id, a second
remove). -/
theorem C8_witness :
    (addIds [Op.list, Op.add uuid0 "johndoe" "johndoe@example.com", Op.list,
      Op.add uuid1 "janedoe" "jane@example.com", Op.list, Op.remove uuid0,
      Op.list, Op.get uuid0, Op.remove uuid0]).Nodup ∧
    List.Forall₂ outputEquiv
      (runMemOps [] [Op.list, Op.add uuid0 "johndoe" "johndoe@example.com", Op.list,
        Op.add uuid1 "janedoe" "jane@example.com", Op.list, Op.remove uuid0,
        Op.list, Op.get uuid0, Op.remove uuid0]).1
      (runSqliteOps ⟨[]⟩ [Op.list, Op.add uuid0 "johndoe" "johndoe@example.com", Op.list,
        Op.add uuid1 "janedoe" "jane@example.com", Op.list, Op.remove uuid0,
        Op.list, Op.get uuid0, Op.remove uuid0]).1 ∧
    List.Forall₂ outputEquiv
      (runMemOps [] [Op.list, Op.add uuid0 "johndoe" "johndoe@example.com", Op.list,
        Op.add uuid1 "janedoe" "jane@example.com", Op.list, Op.remove uuid0,
        Op.list, Op.get uuid0, Op.remove uuid0]).1
      (runMongoOps ⟨[], 0⟩ [Op.list, Op.add uuid0 "johndoe" "johndoe@example.com", Op.list,
        Op.add uuid1 "janedoe" "jane@example.com", Op.list, Op.remove uuid0,
        Op.list, Op.get uuid0, Op.remove uuid0]).1 := by
  have h := C8_cross_backend_conformance
    [Op.list, Op.add uuid0 "johndoe" "johndoe@example.com", Op.list,
      Op.add uuid1 "janedoe" "jane@example.com", Op.list, Op.remove uuid0,
      Op.list, Op.get uuid0, Op.remove uuid0] (by decide)
  exact ⟨by decide, h.1, h.2⟩

/-- C10: the read operations get_user and list_users leave the stored
state of every backend unchanged, so interposing any block of reads
between other operations changes neither the final state nor the
results of the surrounding operations. -/
theorem C10_reads_do_not_disturb :
    ∀ (pre reads post : List Op), (∀ op ∈ reads, op.isRead = true) →
    (∀ (st : MemState),
      (runMemOps st (pre ++ reads ++ post)).2 = (runMemOps st (pre ++ post)).2 ∧
      (runMemOps st (pre ++ reads ++ post)).1 =
        (runMemOps st pre).1 ++ (runMemOps (runMemOps st pre).2 reads).1 ++
        (runMemOps (runMemOps st pre).2 post).1 ∧
      (runMemOps st (pre ++ post)).1 =
        (runMemOps st pre).1 ++ (runMemOps (runMemOps st pre).2 post).1) ∧
    (∀ (db : SqliteDb),
      (runSqliteOps db (pre ++ reads ++ post)).2 = (runSqliteOps db (pre ++ post)).2 ∧
      (runSqliteOps db (pre ++ reads ++ post)).1 =
        (runSqliteOps db pre).1 ++ (runSqliteOps (runSqliteOps db pre).2 reads).1 ++
        (runSqliteOps (runSqliteOps db pre).2 post).1 ∧
      (runSqliteOps db (pre ++ post)).1 =
        (runSqliteOps db pre).1 ++ (runSqliteOps (runSqliteOps db pre).2 post).1) ∧
    (∀ (db : MongoDb),
      (runMongoOps db (pre ++ reads ++ post)).2 = (runMongoOps db (pre ++ post)).2 ∧
      (runMongoOps db (pre ++ reads ++ post)).1 =
        (runMongoOps db pre).1 ++ (runMongoOps (runMongoOps db pre).2 reads).1 ++
        (runMongoOps (runMongoOps db pre).2 post).1 ∧
      (runMongoOps db (pre ++ post)).1 =
        (runMongoOps db pre).1 ++ (runMongoOps (runMongoOps db pre).2 post).1) := by
  intro pre reads post hreads
  refine ⟨?_, ?_, ?_⟩
  · intro st
    have hr : ∀ (s : MemState), (runMemOps s reads).2 = s :=
      fun s => runMemOps_reads_state reads s hreads
    refine ⟨?_, ?_, ?_⟩ <;> simp [runMemOps_append, hr]
  · intro db
    have hr : ∀ (d : SqliteDb), (runSqliteOps d reads).2 = d :=
      fun d => runSqliteOps_reads_state reads d hreads
    refine ⟨?_, ?_, ?_⟩ <;> simp [runSqliteOps_append, hr]
  · intro db
    have hr : ∀ (d : MongoDb), (runMongoOps d reads).2 = d :=
      fun d => runMongoOps_reads_state reads d hreads
    refine ⟨?_, ?_, ?_⟩ <;> simp [runMongoOps_append, hr]

/-- C10 (witness): interposing a list+get block between an add and a
remove leaves every backend's final state unchanged. -/
theorem C10_witness :
    (runMemOps []
        ([Op.add uuid0 "a" "b"] ++ [Op.list, Op.get uuid0] ++ [Op.remove uuid0])).2
      = (runMemOps [] ([Op.add uuid0 "a" "b"] ++ [Op.remove uuid0])).2 ∧
    (runSqliteOps ⟨[]⟩
        ([Op.add uuid0 "a" "b"] ++ [Op.list, Op.get uuid0] ++ [Op.remove uuid0])).2
      = (runSqliteOps ⟨[]⟩ ([Op.add uuid0 "a" "b"] ++ [Op.remove uuid0])).2 ∧
    (runMongoOps ⟨[], 0⟩
        ([Op.add uuid0 "a" "b"] ++ [Op.list, Op.get uuid0] ++ [Op.remove uuid0])).2
      = (runMongoOps ⟨[], 0⟩ ([Op.add uuid0 "a" "b"] ++ [Op.remove uuid0])).2 := by
  have h := C10_reads_do_not_disturb [Op.add uuid0 "a" "b"] [Op.list, Op.get uuid0]
    [Op.remove uuid0] (by decide)
  exact ⟨(h.1 []).1, (h.2.1 ⟨[]⟩).1, (h.2.2 ⟨[], 0⟩).1⟩
